import Mathlib

/-! # core_table: an order-preserving associative container

Shallow embedding of `src/core_table.h`.

The class keeps two members:

* `data`, a `std::list<std::pair<K, V>>`: the sequence store;
* `gate`, a `std::set<iterator, compare>`: the key index, whose elements are
  iterators into `data`, ordered by the key of the node they point to.

A list iterator is a pointer to a list node, so the embedding gives every node
an address.  `data` is the list of nodes in sequence order, `gate` is the list
of the stored addresses in the order the comparator puts them.  Dereferencing
an address that is not a live node of `data`, or passing such an address as an
insert position, is undefined behaviour in C++; the embedding returns `none`
there, and every operation that may reach such a dereference is in `Option`.
-/

namespace CoreTable

variable {K V : Type}

/-! ## std::list -/

/-- One node of `std::list<value>`: its address and the stored `std::pair<K, V>`. -/
structure node (K V : Type) where
  addr : Nat
  first : K
  second : V
deriving DecidableEq

/-- The type `chain = std::list<value>`: the nodes in sequence order. -/
abbrev chain (K V : Type) := List (node K V)

/-- A `chain` iterator: `some a` points to the node at address `a`, `none` is `end()`. -/
abbrev iterator := Option Nat

/-- The pairs stored in a chain, in sequence order. -/
def entries (d : chain K V) : List (K × V) := d.map (fun n => (n.first, n.second))

/-- Dereference `*it` of a list iterator: the node at address `a`, if it is live. -/
def deref (d : chain K V) (a : Nat) : Option (node K V) :=
  d.find? (fun n => decide (n.addr = a))

/-- The address the allocator gives the next node: one that no live node has. -/
def new_addr (d : chain K V) : Nat := (d.map node.addr).foldr max 0 + 1

/-- Link node `n` in front of the node at address `a`. -/
def link_before : chain K V → Nat → node K V → Option (chain K V)
  | [], _, _ => none
  | x :: xs, a, n =>
    if x.addr = a then some (n :: x :: xs) else (link_before xs a n).map (fun r => x :: r)

/-- The call `std::list::emplace(cit, k, v)`: a new node holding `(k, v)` is linked
in front of `cit`; the result is the new list and the iterator to the new node. -/
def list_emplace (d : chain K V) (cit : iterator) (k : K) (v : V) :
    Option (chain K V × Nat) :=
  match cit with
  | none => some (d ++ [⟨new_addr d, k, v⟩], new_addr d)
  | some a => (link_before d a ⟨new_addr d, k, v⟩).map (fun r => (r, new_addr d))

/-- The call `std::list::erase(it)`: unlink the node at address `a`. -/
def list_erase : chain K V → Nat → Option (chain K V)
  | [], _ => none
  | x :: xs, a => if x.addr = a then some xs else (list_erase xs a).map (fun r => x :: r)

/-- The assignment `it->second = v` through a list iterator. -/
def list_assign : chain K V → Nat → V → Option (chain K V)
  | [], _, _ => none
  | x :: xs, a, v =>
    if x.addr = a then some ({ x with second := v } :: xs)
    else (list_assign xs a v).map (fun r => x :: r)

/-- The call `std::list::sort(p)`: a stable sort that relinks the nodes, so every
node keeps its address.  An element moves in front of another only when `p` says
it is smaller. -/
def list_sort (p : K × V → K × V → Bool) (d : chain K V) : chain K V :=
  d.insertionSort (fun x y => p (y.first, y.second) (x.first, x.second) = false)

/-- The call `std::next(it)` on a list iterator: the iterator to the node that
follows the node at address `a`, `end()` when that node is the last one. -/
def list_next : chain K V → Nat → Option iterator
  | [], _ => none
  | x :: xs, a => if x.addr = a then some (xs.head?.map node.addr) else list_next xs a

/-- The comparison `x == y` of two `std::pair<K, V>`. -/
def pair_eq [DecidableEq K] [DecidableEq V] (x y : K × V) : Bool :=
  decide (x.1 = y.1) && decide (x.2 = y.2)

/-- The comparison `x < y` of two `std::pair<K, V>`. -/
def pair_lt [LinearOrder K] [LinearOrder V] (x y : K × V) : Bool :=
  decide (x.1 < y.1) || (!decide (y.1 < x.1) && decide (x.2 < y.2))

/-- The comparison `x == y` of two `std::list<value>`: same size and equal elements
at every position. -/
def list_equal [DecidableEq K] [DecidableEq V] : chain K V → chain K V → Bool
  | [], [] => true
  | x :: xs, y :: ys => pair_eq (x.first, x.second) (y.first, y.second) && list_equal xs ys
  | _, _ => false

/-- The comparison `x < y` of two `std::list<value>`, which is
`std::lexicographical_compare`: the first position where one element is less than
the other decides, and a list that runs out first is less. -/
def lexicographical_compare [LinearOrder K] [LinearOrder V] : chain K V → chain K V → Bool
  | [], [] => false
  | [], _ :: _ => true
  | _ :: _, [] => false
  | x :: xs, y :: ys =>
    if pair_lt (x.first, x.second) (y.first, y.second) then true
    else if pair_lt (y.first, y.second) (x.first, x.second) then false
    else lexicographical_compare xs ys

/-! ## struct compare and std::set -/

/-- The overload `compare::operator()(const_iterator x, const_iterator y)`. -/
def compare_ii [LinearOrder K] (d : chain K V) (x y : Nat) : Option Bool :=
  match deref d x, deref d y with
  | some a, some b => some (decide (a.first < b.first))
  | _, _ => none

/-- The overload `compare::operator()(const_iterator x, K const & k)`. -/
def compare_ik [LinearOrder K] (d : chain K V) (x : Nat) (k : K) : Option Bool :=
  match deref d x with
  | some a => some (decide (a.first < k))
  | none => none

/-- The overload `compare::operator()(K const & k, const_iterator y)`. -/
def compare_ki [LinearOrder K] (d : chain K V) (k : K) (y : Nat) : Option Bool :=
  match deref d y with
  | some b => some (decide (k < b.first))
  | none => none

/-- The call `std::set::find(k)` with the transparent comparator, on the elements
`g` of the set in ascending order: the first element not less than `k` is the
match unless `k` is less than it.  The inner `none` is `gate.end()`. -/
def set_find [LinearOrder K] (d : chain K V) : List Nat → K → Option (Option Nat)
  | [], _ => some none
  | x :: xs, k =>
    match compare_ik d x k with
    | none => none
    | some true => set_find d xs k
    | some false =>
      match compare_ki d k x with
      | none => none
      | some true => some none
      | some false => some (some x)

/-- The call `std::set::emplace(it)`: `it` goes to its place in ascending order,
unless an equivalent element is already there. -/
def set_emplace [LinearOrder K] (d : chain K V) : List Nat → Nat → Option (List Nat)
  | [], h => some [h]
  | x :: xs, h =>
    match compare_ii d x h with
    | none => none
    | some true => (set_emplace d xs h).map (fun r => x :: r)
    | some false =>
      match compare_ii d h x with
      | none => none
      | some true => some (h :: x :: xs)
      | some false => some (x :: xs)

/-- The call `std::set::erase(it)` for the set iterator that holds address `a`. -/
def set_erase (g : List Nat) (a : Nat) : List Nat := g.erase a

/-! ## class core_table -/

/-- The two data members of `core_table<K, V>`. -/
structure core_table (K V : Type) where
  data : chain K V := []
  gate : List Nat := []
deriving DecidableEq

/-- The exception thrown by `operator []`. -/
inductive exception where
  | out_of_range (what : String)
deriving DecidableEq

namespace core_table

/-- The default constructor `core_table()`. -/
def empty : core_table K V := { data := [], gate := [] }

/-- The sequence of `(key, value)` pairs, in iteration order. -/
def seq (c : core_table K V) : List (K × V) := entries c.data

def begin (c : core_table K V) : iterator := c.data.head?.map node.addr

def end_ (_c : core_table K V) : iterator := none

def is_empty (c : core_table K V) : Bool := c.gate.isEmpty

def length (c : core_table K V) : Nat := c.gate.length

def front (c : core_table K V) : Option (node K V) := c.data.head?

def back (c : core_table K V) : Option (node K V) := c.data.getLast?

def keys (c : core_table K V) : List K := c.data.map node.first

def values (c : core_table K V) : List V := c.data.map node.second

variable [LinearOrder K]

def contains_key (c : core_table K V) (k : K) : Option Bool :=
  (set_find c.data c.gate k).map (fun it => it.isSome)

def insert (c : core_table K V) (cit : iterator) (k : K) (v : V) : Option (core_table K V) :=
  match set_find c.data c.gate k with
  | none => none
  | some (some it) => (list_assign c.data it v).map (fun d => { c with data := d })
  | some none =>
    match list_emplace c.data cit k v with
    | none => none
    | some (d, it) => (set_emplace d c.gate it).map (fun g => { data := d, gate := g })

def unshift (c : core_table K V) (k : K) (v : V) : Option (core_table K V) :=
  c.insert c.begin k v

def prepend (c ct : core_table K V) : Option (core_table K V) :=
  ct.data.foldlM (fun acc e => acc.unshift e.first e.second) c

def push (c : core_table K V) (k : K) (v : V) : Option (core_table K V) :=
  c.insert c.end_ k v

def append (c ct : core_table K V) : Option (core_table K V) :=
  ct.data.foldlM (fun acc e => acc.push e.first e.second) c

def splice (c : core_table K V) (cit : iterator) (ct : core_table K V) :
    Option (core_table K V) :=
  ct.data.foldlM (fun acc e => acc.insert cit e.first e.second) c

/-- The constructor `core_table(std::initializer_list<value> il)`. -/
def of_list (il : List (K × V)) : Option (core_table K V) :=
  il.foldlM (fun acc e => acc.push e.1 e.2) empty

/-- The copy constructor `core_table(core_table const & ct)`. -/
def copy (ct : core_table K V) : Option (core_table K V) :=
  ct.data.foldlM (fun acc e => acc.push e.first e.second) empty

/-- The method `remove(k)`: the returned container and the receiver afterwards. -/
def remove (c : core_table K V) (k : K) : Option (core_table K V × core_table K V) :=
  match set_find c.data c.gate k with
  | none => none
  | some (some it) =>
    match deref c.data it with
    | none => none
    | some n =>
      match of_list [(n.first, n.second)], list_erase c.data it with
      | some output, some d => some (output, { data := d, gate := set_erase c.gate it })
      | _, _ => none
  | some none => some (empty, c)

def shift (c : core_table K V) : Option (core_table K V × core_table K V) :=
  if c.is_empty then some (empty, c)
  else
    match c.front with
    | none => none
    | some n => c.remove n.first

def pop (c : core_table K V) : Option (core_table K V × core_table K V) :=
  if c.is_empty then some (empty, c)
  else
    match c.back with
    | none => none
    | some n => c.remove n.first

omit [LinearOrder K] in
def clear (_c : core_table K V) : core_table K V := { data := [], gate := [] }

omit [LinearOrder K] in
def sort (c : core_table K V) (p : K × V → K × V → Bool) : core_table K V :=
  { c with data := list_sort p c.data }

def sort_by_key (c : core_table K V) : core_table K V :=
  { c with data := list_sort (fun x y => decide (x.1 < y.1)) c.data }

omit [LinearOrder K] in
def sort_by_value [LinearOrder V] (c : core_table K V) : core_table K V :=
  { c with data := list_sort (fun x y => decide (x.2 < y.2)) c.data }

omit [LinearOrder K] in
def reverse (c : core_table K V) : core_table K V :=
  { c with data := c.data.reverse }

def value_at [Inhabited V] (c : core_table K V) (k : K) : Option V :=
  match set_find c.data c.gate k with
  | none => none
  | some (some it) => (deref c.data it).map node.second
  | some none => some default

/-- The method `operator [](k)`: the referenced value, or the exception thrown. -/
def subscript (c : core_table K V) (k : K) : Option (Except exception V) :=
  match set_find c.data c.gate k with
  | none => none
  | some (some it) => (deref c.data it).map (fun n => Except.ok n.second)
  | some none => some (Except.error (exception.out_of_range "core_table, operator []: key not found!"))

omit [LinearOrder K] in
def invert [LinearOrder V] (c : core_table K V) : Option (core_table V K) :=
  c.data.foldlM (fun output e => output.push e.second e.first) empty

def find (c : core_table K V) (k : K) : Option iterator :=
  match set_find c.data c.gate k with
  | none => none
  | some (some it) => list_next c.data it
  | some none => some c.end_

def head (c : core_table K V) : Option (core_table K V) :=
  if c.is_empty then some empty
  else
    match c.front with
    | none => none
    | some n => of_list [(n.first, n.second)]

def last (c : core_table K V) : Option (core_table K V) :=
  if c.is_empty then some empty
  else
    match c.back with
    | none => none
    | some n => of_list [(n.first, n.second)]

def lead (c : core_table K V) : Option (core_table K V) :=
  if c.is_empty then some empty
  else
    match copy c with
    | none => none
    | some output => output.pop.map Prod.snd

def tail (c : core_table K V) : Option (core_table K V) :=
  if c.is_empty then some empty
  else
    match copy c with
    | none => none
    | some output => output.shift.map Prod.snd

/-- The method `edge()`.  `return {*this}` copy-constructs the result, and so does
returning the `core_table &` that `head().append(last())` yields. -/
def edge (c : core_table K V) : Option (core_table K V) :=
  if c.length < 3 then copy c
  else
    match c.head, c.last with
    | some h, some l =>
      match h.append l with
      | none => none
      | some r => copy r
    | _, _ => none

def bulk (c : core_table K V) : Option (core_table K V) :=
  if c.length < 3 then some empty
  else
    match copy c with
    | none => none
    | some output =>
      match output.shift with
      | none => none
      | some (_, output1) => output1.pop.map Prod.snd

omit [LinearOrder K] in
def operator_eq [DecidableEq K] [DecidableEq V] (c ct : core_table K V) : Bool :=
  list_equal c.data ct.data

omit [LinearOrder K] in
def operator_ne [DecidableEq K] [DecidableEq V] (c ct : core_table K V) : Bool :=
  !(c.operator_eq ct)

def operator_lt [LinearOrder V] (c ct : core_table K V) : Bool :=
  lexicographical_compare c.data ct.data

def operator_gt [LinearOrder V] (c ct : core_table K V) : Bool :=
  ct.operator_lt c

def operator_le [LinearOrder V] (c ct : core_table K V) : Bool :=
  !(c.operator_gt ct)

def operator_ge [LinearOrder V] (c ct : core_table K V) : Bool :=
  !(c.operator_lt ct)

end core_table

/-! ## The invariants of section 3 of the specification -/

/-- The key the comparator reads through the iterator `a`. -/
def key_of (d : chain K V) (a : Nat) : Option K := (deref d a).map node.first

/-- The order `compare` puts on two stored iterators: both point to live nodes
and the key of the first is less than the key of the second. -/
def key_lt [LinearOrder K] (d : chain K V) (x y : Nat) : Prop :=
  ∃ a ∈ key_of d x, ∃ b ∈ key_of d y, a < b

instance key_lt_decidable [LinearOrder K] (d : chain K V) (x y : Nat) :
    Decidable (key_lt d x y) := by
  unfold key_lt
  infer_instance

/-- The iterator to the first node of `dy`, or `end()` when `dy` is empty: the
position that splits a sequence `dx ++ dy` in front of `dy`. -/
def pos (dy : chain K V) : iterator := dy.head?.map node.addr

/-- The iterator `std::next(c.begin(), i)`: the position of entry number `i` of the
sequence, and `end()` when `i` is the length. -/
def core_table.iter_at (c : core_table K V) (i : Nat) : iterator := pos (c.data.drop i)

/-- The representation invariant of the container.

* `addr_nodup`: distinct nodes of `data` are distinct objects;
* `key_unique`: no two entries share a key (invariant 1);
* `gate_perm`: `gate` holds exactly one iterator per node of `data` (invariant 2);
* `gate_sorted`: `gate` is strictly ascending under `compare`, which is what makes
  `std::set` lookups meaningful. -/
structure invariant [LinearOrder K] (c : core_table K V) : Prop where
  addr_nodup : (c.data.map node.addr).Nodup
  key_unique : c.keys.Nodup
  gate_perm : c.gate.Perm (c.data.map node.addr)
  gate_sorted : c.gate.Pairwise (key_lt c.data)

instance invariant_decidable [LinearOrder K] (c : core_table K V) : Decidable (invariant c) :=
  decidable_of_iff
    ((c.data.map node.addr).Nodup ∧ c.keys.Nodup ∧ c.gate.Perm (c.data.map node.addr) ∧
      c.gate.Pairwise (key_lt c.data))
    ⟨fun h => ⟨h.1, h.2.1, h.2.2.1, h.2.2.2⟩, fun h => ⟨h.1, h.2, h.3, h.4⟩⟩

/-- A valid position of `c`: `end()` or an iterator to a live node of `data`. -/
def core_table.valid (c : core_table K V) (cit : iterator) : Prop :=
  ∀ a, cit = some a → a ∈ c.data.map node.addr

/-! ## The overloads that take the source by rvalue reference -/

/-- The state in which a move leaves the object moved from.  `K` and `V` are template
parameters, so what their move constructor and move assignment leave behind is a
parameter of the model: an `int` keeps its value, and a `std::string` is left empty
by the usual library implementations. -/
structure moved_from (K V : Type) where
  first : K → K
  second : V → V

/-- A move that leaves the object moved from as it was, as for `int`. -/
def trivial_move : moved_from K V := { first := id, second := id }

/-- The move of `std::string` keys, which leaves the key moved from empty. -/
def string_move : moved_from String V := { first := fun _ => "", second := id }

namespace core_table

variable [LinearOrder K]

/-- The call `insert(cit, std::move(e.first), std::move(e.second))` on an entry `e`
of another container: the receiver and the entry `e` after the call.  When the key
is present only `e.second` is moved from, by the assignment to `(*it)->second`;
otherwise `data.emplace` moves both members into the new node. -/
def insert_move (mf : moved_from K V) (c : core_table K V) (cit : iterator) (e : node K V) :
    Option (core_table K V × node K V) :=
  match set_find c.data c.gate e.first with
  | none => none
  | some (some it) =>
    (list_assign c.data it e.second).map
      (fun d => ({ c with data := d }, { e with second := mf.second e.second }))
  | some none =>
    match list_emplace c.data cit e.first e.second with
    | none => none
    | some (d, it) =>
      (set_emplace d c.gate it).map
        (fun g => ({ data := d, gate := g },
          { e with first := mf.first e.first, second := mf.second e.second }))

/-- The loop `for (auto & e : ct) insert(p, std::move(e.first), std::move(e.second))`
over the nodes of the source, where `p` is the position the call computes on the
receiver: the receiver and the nodes of the source after the loop. -/
def consume (mf : moved_from K V) (p : core_table K V → iterator) :
    chain K V → core_table K V → Option (core_table K V × chain K V)
  | [], c => some (c, [])
  | e :: es, c =>
    match c.insert_move mf (p c) e with
    | none => none
    | some (c1, e1) => (consume mf p es c1).map (fun r => (r.1, e1 :: r.2))

/-- The overload `prepend(core_table && ct)`: the receiver and `ct` after the call.
The loop does not touch `ct.gate`. -/
def prepend_move (mf : moved_from K V) (c ct : core_table K V) :
    Option (core_table K V × core_table K V) :=
  (consume mf (fun acc => acc.begin) ct.data c).map (fun r => (r.1, { ct with data := r.2 }))

/-- The overload `append(core_table && ct)`: the receiver and `ct` after the call. -/
def append_move (mf : moved_from K V) (c ct : core_table K V) :
    Option (core_table K V × core_table K V) :=
  (consume mf (fun acc => acc.end_) ct.data c).map (fun r => (r.1, { ct with data := r.2 }))

/-- The overload `splice(cit, core_table && ct)`: the receiver and `ct` after the
call. -/
def splice_move (mf : moved_from K V) (c : core_table K V) (cit : iterator)
    (ct : core_table K V) : Option (core_table K V × core_table K V) :=
  (consume mf (fun _ => cit) ct.data c).map (fun r => (r.1, { ct with data := r.2 }))

end core_table

/-! ## Sequences of public mutating operations -/

/-- One call of a public mutating member function, with its arguments.  `append`,
`prepend` and `splice` are the overloads that take the source by `const &`;
`append_move`, `prepend_move` and `splice_move` are the overloads that take it by
`&&`. -/
inductive op (K V : Type) where
  | insert (cit : iterator) (k : K) (v : V)
  | push (k : K) (v : V)
  | unshift (k : K) (v : V)
  | append (ct : core_table K V)
  | prepend (ct : core_table K V)
  | splice (cit : iterator) (ct : core_table K V)
  | append_move (ct : core_table K V)
  | prepend_move (ct : core_table K V)
  | splice_move (cit : iterator) (ct : core_table K V)
  | remove (k : K)
  | shift
  | pop
  | clear
  | sort (p : K × V → K × V → Bool)
  | sort_by_key
  | sort_by_value
  | reverse

/-- The container that the call `o` takes by `&&`, when it takes one. -/
def op.source : op K V → Option (core_table K V)
  | op.append_move ct => some ct
  | op.prepend_move ct => some ct
  | op.splice_move _ ct => some ct
  | _ => none

/-- The containers the call `o` has written to, after the call: the receiver, and
the source when it was taken by `&&`. -/
def op.apply [LinearOrder K] [LinearOrder V] (mf : moved_from K V) (c : core_table K V) :
    op K V → Option (core_table K V × Option (core_table K V))
  | op.insert cit k v => (c.insert cit k v).map (fun r => (r, none))
  | op.push k v => (c.push k v).map (fun r => (r, none))
  | op.unshift k v => (c.unshift k v).map (fun r => (r, none))
  | op.append ct => (c.append ct).map (fun r => (r, none))
  | op.prepend ct => (c.prepend ct).map (fun r => (r, none))
  | op.splice cit ct => (c.splice cit ct).map (fun r => (r, none))
  | op.append_move ct => (c.append_move mf ct).map (fun r => (r.1, some r.2))
  | op.prepend_move ct => (c.prepend_move mf ct).map (fun r => (r.1, some r.2))
  | op.splice_move cit ct => (c.splice_move mf cit ct).map (fun r => (r.1, some r.2))
  | op.remove k => (c.remove k).map (fun r => (r.2, none))
  | op.shift => c.shift.map (fun r => (r.2, none))
  | op.pop => c.pop.map (fun r => (r.2, none))
  | op.clear => some (c.clear, none)
  | op.sort p => some (c.sort p, none)
  | op.sort_by_key => some (c.sort_by_key, none)
  | op.sort_by_value => some (c.sort_by_value, none)
  | op.reverse => some (c.reverse, none)

/-- The positions passed to the call `o` are valid positions of the receiver. -/
def op.valid (c : core_table K V) : op K V → Prop
  | op.insert cit _ _ => c.valid cit
  | op.splice cit _ => c.valid cit
  | op.splice_move cit _ => c.valid cit
  | _ => True

/-- The containers that the public mutating operations produce, starting from the
default-constructed container or from an initializer-list construction: the
receiver of every call, and the source of every call that takes it by `&&`, which
stays a live container after the call.  The flag tells whether the container has
been such a source (`true`) or never (`false`). -/
inductive reachable [LinearOrder K] [LinearOrder V] (mf : moved_from K V) :
    Bool → core_table K V → Prop where
  | empty : reachable mf false core_table.empty
  | of_list (il : List (K × V)) (c : core_table K V) :
      core_table.of_list il = some c → reachable mf false c
  | receiver (b : Bool) (c : core_table K V) (o : op K V) (r : core_table K V)
      (s : Option (core_table K V)) :
      reachable mf b c → op.apply mf c o = some (r, s) → reachable mf b r
  | source (b1 b2 : Bool) (c ct : core_table K V) (o : op K V) (r s : core_table K V) :
      reachable mf b1 c → reachable mf b2 ct → op.source o = some ct →
      op.apply mf c o = some (r, some s) → reachable mf true s

/-! ## Notions on sequences used to state the claims -/

/-- The distinct elements of a list, in order of first occurrence. -/
def first_occurrences {α : Type} [DecidableEq α] : List α → List α
  | [] => []
  | a :: l => a :: (first_occurrences l).filter (fun b => decide (b ≠ a))

/-- What `push(k, v)` does to the sequence: the entry of `k` takes the value `v` where
it stands, or `(k, v)` goes to the end when `k` has no entry. -/
def seq_push [DecidableEq K] (s : List (K × V)) (e : K × V) : List (K × V) :=
  if e.1 ∈ s.map Prod.fst then s.map (fun x => if x.1 = e.1 then (x.1, e.2) else x)
  else s ++ [e]

/-- The order on sequences as the specification words it: `a` is a proper prefix
of `b`, or at the first index where they differ the entry of `a` is the smaller
pair (smaller key, or equal key and smaller value). -/
def seq_less [LinearOrder K] [LinearOrder V] (a b : List (K × V)) : Prop :=
  (∃ t, t ≠ [] ∧ b = a ++ t) ∨
    ∃ p x y s t, a = p ++ x :: s ∧ b = p ++ y :: t ∧ (x.1 < y.1 ∨ (x.1 = y.1 ∧ x.2 < y.2))

/-! # Theorems -/

section list_lemmas

theorem le_foldr_max (l : List Nat) (a : Nat) (h : a ∈ l) : a ≤ l.foldr max 0 := by
  induction l with
  | nil => simp at h
  | cons x xs ih =>
    simp only [List.foldr_cons]
    rcases List.mem_cons.mp h with rfl | h
    · exact le_max_left _ _
    · exact le_trans (ih h) (le_max_right _ _)

theorem new_addr_fresh (d : chain K V) : new_addr d ∉ d.map node.addr := by
  intro h
  have := le_foldr_max _ _ h
  unfold new_addr at this
  omega

theorem deref_eq_none (d : chain K V) (a : Nat) (h : a ∉ d.map node.addr) :
    deref d a = none := by
  unfold deref
  rw [List.find?_eq_none]
  intro n hn
  simp only [decide_eq_true_eq]
  intro e
  exact h (List.mem_map.mpr ⟨n, hn, e⟩)

theorem deref_split (dx dy : chain K V) (n : node K V) (h : n.addr ∉ dx.map node.addr) :
    deref (dx ++ n :: dy) n.addr = some n := by
  induction dx with
  | nil => simp [deref]
  | cons x xs ih =>
    simp only [List.map_cons, List.mem_cons, not_or] at h
    have hx : ¬ x.addr = n.addr := fun e => h.1 e.symm
    have := ih h.2
    simp only [deref] at this ⊢
    simp [List.find?_cons, hx, this]

theorem deref_some (d : chain K V) (a : Nat) (n : node K V) (h : deref d a = some n) :
    n ∈ d ∧ n.addr = a := by
  unfold deref at h
  refine ⟨List.mem_of_find?_eq_some h, ?_⟩
  have := List.find?_some h
  simpa using this

theorem deref_of_mem (d : chain K V) (hd : (d.map node.addr).Nodup) (n : node K V)
    (hn : n ∈ d) : deref d n.addr = some n := by
  obtain ⟨dx, dy, rfl⟩ := List.append_of_mem hn
  apply deref_split
  simp only [List.map_append, List.map_cons] at hd
  have := (List.nodup_append.mp hd).2.2
  intro hmem
  exact this hmem (List.mem_cons_self _ _)

theorem key_of_of_mem (d : chain K V) (hd : (d.map node.addr).Nodup) (n : node K V)
    (hn : n ∈ d) : key_of d n.addr = some n.first := by
  simp [key_of, deref_of_mem d hd n hn]

theorem key_of_some (d : chain K V) (a : Nat) (k : K) (h : key_of d a = some k) :
    ∃ n ∈ d, n.addr = a ∧ n.first = k := by
  unfold key_of at h
  cases hn : deref d a with
  | none => simp [hn] at h
  | some n =>
    simp [hn] at h
    exact ⟨n, (deref_some d a n hn).1, (deref_some d a n hn).2, h⟩

end list_lemmas

section set_lemmas

variable [LinearOrder K]

theorem compare_ik_eq (d : chain K V) (x : Nat) (k : K) :
    compare_ik d x k = (key_of d x).map (fun a => decide (a < k)) := by
  unfold compare_ik key_of
  cases deref d x <;> rfl

theorem compare_ki_eq (d : chain K V) (k : K) (y : Nat) :
    compare_ki d k y = (key_of d y).map (fun b => decide (k < b)) := by
  unfold compare_ki key_of
  cases deref d y <;> rfl

theorem compare_ii_eq (d : chain K V) (x y : Nat) (a b : K) (hx : key_of d x = some a)
    (hy : key_of d y = some b) : compare_ii d x y = some (decide (a < b)) := by
  unfold key_of at hx hy
  unfold compare_ii
  cases h1 : deref d x with
  | none => simp [h1] at hx
  | some n =>
    cases h2 : deref d y with
    | none => simp [h2] at hy
    | some m =>
      simp only [h1, h2, Option.map_some', Option.some.injEq] at hx hy
      simp [hx, hy]

theorem key_lt_iff (d : chain K V) (x y : Nat) :
    key_lt d x y ↔ ∃ a b, key_of d x = some a ∧ key_of d y = some b ∧ a < b := by
  unfold key_lt
  constructor
  · rintro ⟨a, ha, b, hb, hab⟩
    exact ⟨a, b, ha, hb, hab⟩
  · rintro ⟨a, b, ha, hb, hab⟩
    exact ⟨a, ha, b, hb, hab⟩

/-- A key that no stored iterator points to is not found. -/
theorem set_find_miss (d : chain K V) (k : K) :
    ∀ g : List Nat, (∀ x ∈ g, ∃ a, key_of d x = some a ∧ a ≠ k) →
      set_find d g k = some none := by
  intro g
  induction g with
  | nil => intro _; rfl
  | cons x xs ih =>
    intro h
    obtain ⟨a, ha, hne⟩ := h x (List.mem_cons_self _ _)
    have ih1 := ih (fun y hy => h y (List.mem_cons_of_mem _ hy))
    by_cases hlt : a < k
    · simp [set_find, compare_ik_eq, ha, hlt, ih1]
    · have hgt : k < a := lt_of_le_of_ne (not_lt.mp hlt) (Ne.symm hne)
      simp [set_find, compare_ik_eq, compare_ki_eq, ha, hlt, hgt]

/-- In an ascending set, the iterator that points to key `k` is found. -/
theorem set_find_hit (d : chain K V) (k : K) (x : Nat) (hx : key_of d x = some k) :
    ∀ g : List Nat, g.Pairwise (key_lt d) → x ∈ g → set_find d g k = some (some x) := by
  intro g
  induction g with
  | nil => intro _ h; simp at h
  | cons y ys ih =>
    intro hs hmem
    rw [List.pairwise_cons] at hs
    by_cases hy : key_of d y = some k
    · have hxy : y = x := by
        rcases List.mem_cons.mp hmem with e | hin
        · exact e.symm
        · obtain ⟨a, b, ha, hb, hab⟩ := (key_lt_iff d y x).mp (hs.1 x hin)
          rw [hy] at ha
          rw [hx] at hb
          simp only [Option.some.injEq] at ha hb
          subst ha hb
          exact absurd hab (lt_irrefl _)
      subst hxy
      simp [set_find, compare_ik_eq, compare_ki_eq, hy]
    · have hin : x ∈ ys := by
        rcases List.mem_cons.mp hmem with e | hin
        · subst e
          exact absurd hx hy
        · exact hin
      obtain ⟨a, b, ha, hb, hab⟩ := (key_lt_iff d y x).mp (hs.1 x hin)
      rw [hx] at hb
      simp only [Option.some.injEq] at hb
      subst hb
      simp [set_find, compare_ik_eq, ha, hab, ih hs.2 hin]

/-- Emplacing an iterator whose key is new puts it at its place in the order. -/
theorem set_emplace_new (d : chain K V) (h : Nat) (k : K) (hk : key_of d h = some k) :
    ∀ g : List Nat, g.Pairwise (key_lt d) → (∀ x ∈ g, ∃ a, key_of d x = some a ∧ a ≠ k) →
      ∃ r, set_emplace d g h = some r ∧ r.Perm (h :: g) ∧ r.Pairwise (key_lt d) := by
  intro g
  induction g with
  | nil =>
    intro _ _
    exact ⟨[h], rfl, List.Perm.refl _, List.pairwise_singleton _ _⟩
  | cons x xs ih =>
    intro hs hne
    rw [List.pairwise_cons] at hs
    obtain ⟨a, ha, hak⟩ := hne x (List.mem_cons_self _ _)
    by_cases hlt : a < k
    · obtain ⟨r, hr, hperm, hsorted⟩ := ih hs.2 (fun y hy => hne y (List.mem_cons_of_mem _ hy))
      refine ⟨x :: r, ?_, ?_, ?_⟩
      · simp [set_emplace, compare_ii_eq d x h a k ha hk, hlt, hr]
      · exact (List.Perm.cons x hperm).trans (List.Perm.swap h x xs)
      · rw [List.pairwise_cons]
        refine ⟨?_, hsorted⟩
        intro y hy
        rcases List.mem_cons.mp (hperm.mem_iff.mp hy) with e | hin
        · subst e
          exact (key_lt_iff d x y).mpr ⟨a, k, ha, hk, hlt⟩
        · exact hs.1 y hin
    · have hgt : k < a := lt_of_le_of_ne (not_lt.mp hlt) (Ne.symm hak)
      refine ⟨h :: x :: xs, ?_, List.Perm.refl _, ?_⟩
      · simp [set_emplace, compare_ii_eq d x h a k ha hk, compare_ii_eq d h x k a hk ha, hlt, hgt]
      · rw [List.pairwise_cons]
        refine ⟨?_, List.pairwise_cons.mpr hs⟩
        intro y hy
        rcases List.mem_cons.mp hy with e | hin
        · subst e
          exact (key_lt_iff d h y).mpr ⟨k, a, hk, ha, hgt⟩
        · obtain ⟨a2, b, ha2, hb, hab⟩ := (key_lt_iff d x y).mp (hs.1 y hin)
          rw [ha] at ha2
          simp only [Option.some.injEq] at ha2
          subst ha2
          exact (key_lt_iff d h y).mpr ⟨k, b, hk, hb, lt_trans hgt hab⟩

/-- The order of the set only depends on the keys read through its elements. -/
theorem pairwise_key_lt_congr (d e : chain K V) (g : List Nat)
    (h : ∀ x ∈ g, key_of e x = key_of d x) (hs : g.Pairwise (key_lt d)) :
    g.Pairwise (key_lt e) := by
  induction g with
  | nil => exact List.Pairwise.nil
  | cons x xs ih =>
    rw [List.pairwise_cons] at hs ⊢
    refine ⟨?_, ih (fun y hy => h y (List.mem_cons_of_mem _ hy)) hs.2⟩
    intro y hy
    obtain ⟨a, b, ha, hb, hab⟩ := (key_lt_iff d x y).mp (hs.1 y hy)
    refine (key_lt_iff e x y).mpr ⟨a, b, ?_, ?_, hab⟩
    · rw [h x (List.mem_cons_self _ _)]; exact ha
    · rw [h y (List.mem_cons_of_mem _ hy)]; exact hb

end set_lemmas

section chain_lemmas

theorem deref_skip (dx dy : chain K V) (m : node K V) (x : Nat) (h : m.addr ≠ x) :
    deref (dx ++ m :: dy) x = deref (dx ++ dy) x := by
  simp [deref, List.find?_append, List.find?_cons, h]

theorem key_of_skip (dx dy : chain K V) (m : node K V) (x : Nat) (h : m.addr ≠ x) :
    key_of (dx ++ m :: dy) x = key_of (dx ++ dy) x := by
  simp [key_of, deref_skip dx dy m x h]

theorem link_before_split (dx dy : chain K V) (n m : node K V)
    (h : n.addr ∉ dx.map node.addr) :
    link_before (dx ++ n :: dy) n.addr m = some (dx ++ m :: n :: dy) := by
  induction dx with
  | nil => simp [link_before]
  | cons x xs ih =>
    simp only [List.map_cons, List.mem_cons, not_or] at h
    have hx : ¬ x.addr = n.addr := fun e => h.1 e.symm
    simp [link_before, hx, ih h.2]

theorem link_before_some (d : chain K V) (a : Nat) (m : node K V) (r : chain K V)
    (h : link_before d a m = some r) :
    ∃ dx dy, d = dx ++ dy ∧ r = dx ++ m :: dy := by
  induction d generalizing r with
  | nil => simp [link_before] at h
  | cons x xs ih =>
    by_cases hx : x.addr = a
    · simp only [link_before, hx, if_true, Option.some.injEq] at h
      exact ⟨[], x :: xs, rfl, by simp [← h]⟩
    · simp only [link_before, hx, if_false, Option.map_eq_some'] at h
      obtain ⟨r1, hr1, e⟩ := h
      obtain ⟨dx, dy, e1, e2⟩ := ih r1 hr1
      exact ⟨x :: dx, dy, by simp [e1], by simp [← e, e2]⟩

theorem list_emplace_split (dx dy : chain K V) (hd : ((dx ++ dy).map node.addr).Nodup)
    (k : K) (v : V) :
    list_emplace (dx ++ dy) (pos dy) k v =
      some (dx ++ ⟨new_addr (dx ++ dy), k, v⟩ :: dy, new_addr (dx ++ dy)) := by
  cases dy with
  | nil => simp [list_emplace, pos]
  | cons n ns =>
    have hn : n.addr ∉ dx.map node.addr := by
      simp only [List.map_append, List.map_cons] at hd
      intro hmem
      exact (List.nodup_append.mp hd).2.2 hmem (List.mem_cons_self _ _)
    simp [list_emplace, pos, link_before_split dx ns n _ hn]

theorem list_emplace_some (d : chain K V) (cit : iterator) (k : K) (v : V)
    (r : chain K V) (a : Nat) (h : list_emplace d cit k v = some (r, a)) :
    a = new_addr d ∧ ∃ dx dy, d = dx ++ dy ∧ r = dx ++ ⟨new_addr d, k, v⟩ :: dy := by
  cases cit with
  | none =>
    simp only [list_emplace, Option.some.injEq, Prod.mk.injEq] at h
    exact ⟨h.2.symm, d, [], by simp, h.1.symm⟩
  | some x =>
    simp only [list_emplace, Option.map_eq_some', Prod.mk.injEq] at h
    obtain ⟨r1, hr1, e1, e2⟩ := h
    subst e1
    exact ⟨e2.symm, link_before_some d x _ r1 hr1⟩

theorem list_erase_split (dx dy : chain K V) (n : node K V)
    (h : n.addr ∉ dx.map node.addr) :
    list_erase (dx ++ n :: dy) n.addr = some (dx ++ dy) := by
  induction dx with
  | nil => simp [list_erase]
  | cons x xs ih =>
    simp only [List.map_cons, List.mem_cons, not_or] at h
    have hx : ¬ x.addr = n.addr := fun e => h.1 e.symm
    simp [list_erase, hx, ih h.2]

theorem list_assign_split (dx dy : chain K V) (n : node K V) (v : V)
    (h : n.addr ∉ dx.map node.addr) :
    list_assign (dx ++ n :: dy) n.addr v = some (dx ++ { n with second := v } :: dy) := by
  induction dx with
  | nil => simp [list_assign]
  | cons x xs ih =>
    simp only [List.map_cons, List.mem_cons, not_or] at h
    have hx : ¬ x.addr = n.addr := fun e => h.1 e.symm
    simp [list_assign, hx, ih h.2]

/-- A chain with distinct addresses splits at each of its nodes. -/
theorem split_at_mem (d : chain K V) (hd : (d.map node.addr).Nodup) (n : node K V)
    (hn : n ∈ d) :
    ∃ dx dy, d = dx ++ n :: dy ∧ n.addr ∉ dx.map node.addr ∧ n.addr ∉ dy.map node.addr := by
  obtain ⟨dx, dy, rfl⟩ := List.append_of_mem hn
  refine ⟨dx, dy, rfl, ?_, ?_⟩
  · simp only [List.map_append, List.map_cons] at hd
    intro hmem
    exact (List.nodup_append.mp hd).2.2 hmem (List.mem_cons_self _ _)
  · simp only [List.map_append, List.map_cons] at hd
    exact (List.nodup_cons.mp (List.nodup_append.mp hd).2.1).1

end chain_lemmas

section invariant_lemmas

variable [LinearOrder K]

omit [LinearOrder K] in
theorem perm_addr_middle (dx dy : chain K V) (m : node K V) :
    (List.map node.addr (dx ++ m :: dy)).Perm (m.addr :: (dx ++ dy).map node.addr) := by
  simp only [List.map_append, List.map_cons]
  exact List.perm_middle

omit [LinearOrder K] in
theorem key_of_assign (dx dy : chain K V) (n : node K V) (v : V) (x : Nat) :
    key_of (dx ++ { n with second := v } :: dy) x = key_of (dx ++ n :: dy) x := by
  by_cases h : n.addr = x
  · simp [key_of, deref, List.find?_append, List.find?_cons, h]
    cases List.find? (fun m => decide (m.addr = x)) dx <;> simp
  · simp [key_of, deref, List.find?_append, List.find?_cons, h]

/-- Every iterator stored in `gate` points to a live node, whose key it reads. -/
theorem invariant.gate_key {c : core_table K V} (hc : invariant c) (x : Nat)
    (hx : x ∈ c.gate) : ∃ n ∈ c.data, n.addr = x ∧ key_of c.data x = some n.first := by
  obtain ⟨n, hn, e⟩ := List.mem_map.mp (hc.gate_perm.mem_iff.mp hx)
  exact ⟨n, hn, e, e ▸ key_of_of_mem c.data hc.addr_nodup n hn⟩

/-- The lookup `gate.find(k)` of a present key yields the iterator to its node. -/
theorem invariant.find_hit {c : core_table K V} (hc : invariant c) (n : node K V)
    (hn : n ∈ c.data) : set_find c.data c.gate n.first = some (some n.addr) := by
  apply set_find_hit c.data n.first n.addr (key_of_of_mem c.data hc.addr_nodup n hn)
    c.gate hc.gate_sorted
  exact hc.gate_perm.mem_iff.mpr (List.mem_map.mpr ⟨n, hn, rfl⟩)

/-- The lookup `gate.find(k)` of an absent key yields `gate.end()`. -/
theorem invariant.find_miss {c : core_table K V} (hc : invariant c) (k : K)
    (hk : k ∉ c.keys) : set_find c.data c.gate k = some none := by
  apply set_find_miss
  intro x hx
  obtain ⟨n, hn, _, hkey⟩ := hc.gate_key x hx
  refine ⟨n.first, hkey, ?_⟩
  intro e
  exact hk (List.mem_map.mpr ⟨n, hn, e⟩)

/-- Updating the value of a present key: the branch `(*it)->second = v` of `insert`. -/
theorem insert_hit (c : core_table K V) (hc : invariant c) (dx dy : chain K V)
    (n : node K V) (hd : c.data = dx ++ n :: dy) (cit : iterator) (v : V) :
    c.insert cit n.first v = some ⟨dx ++ { n with second := v } :: dy, c.gate⟩ ∧
      invariant (⟨dx ++ { n with second := v } :: dy, c.gate⟩ : core_table K V) := by
  have hn : n ∈ c.data := by rw [hd]; simp
  have hnd := hc.addr_nodup
  rw [hd] at hnd
  have hnx : n.addr ∉ dx.map node.addr := by
    simp only [List.map_append, List.map_cons] at hnd
    intro hmem
    exact (List.nodup_append.mp hnd).2.2 hmem (List.mem_cons_self _ _)
  constructor
  · unfold core_table.insert
    rw [hc.find_hit n hn]
    simp only [hd, list_assign_split dx dy n v hnx, Option.map_some']
  · refine ⟨?_, ?_, ?_, ?_⟩
    · simpa using hnd
    · have := hc.key_unique
      simpa [core_table.keys, hd] using this
    · have := hc.gate_perm
      simpa [hd] using this
    · apply pairwise_key_lt_congr c.data _ c.gate _ hc.gate_sorted
      intro x _
      rw [hd]
      exact key_of_assign dx dy n v x

/-- Registering a new node in the index: the call `gate.emplace(...)` of `insert`. -/
theorem emplace_inv (c : core_table K V) (hc : invariant c) (k : K) (hk : k ∉ c.keys)
    (dx dy : chain K V) (hd : c.data = dx ++ dy) (v : V) :
    ∃ g, set_emplace (dx ++ ⟨new_addr c.data, k, v⟩ :: dy) c.gate (new_addr c.data) = some g ∧
      g.Perm (new_addr c.data :: c.gate) ∧
      invariant (⟨dx ++ ⟨new_addr c.data, k, v⟩ :: dy, g⟩ : core_table K V) := by
  have hfresh := new_addr_fresh c.data
  have hfresh2 : new_addr c.data ∉ (dx ++ dy).map node.addr := by
    rw [← hd]; exact hfresh
  have hfx : new_addr c.data ∉ dx.map node.addr := by
    intro h; apply hfresh2; simp only [List.map_append, List.mem_append]; exact Or.inl h
  have hold : ∀ x ∈ c.gate, key_of (dx ++ ⟨new_addr c.data, k, v⟩ :: dy) x = key_of c.data x := by
    intro x hx
    have e : key_of c.data x = key_of (dx ++ dy) x := by rw [hd]
    rw [e]
    apply key_of_skip
    show new_addr c.data ≠ x
    intro e1
    apply hfresh
    rw [e1]
    exact hc.gate_perm.mem_iff.mp hx
  have hnew : key_of (dx ++ ⟨new_addr c.data, k, v⟩ :: dy) (new_addr c.data) = some k := by
    have := deref_split dx dy ⟨new_addr c.data, k, v⟩ hfx
    simp only at this
    simp [key_of, this]
  have hsorted := pairwise_key_lt_congr c.data _ c.gate hold hc.gate_sorted
  obtain ⟨g, hg, hperm, hgs⟩ := set_emplace_new _ _ k hnew c.gate hsorted (by
    intro x hx
    obtain ⟨n, hn, _, hkey⟩ := hc.gate_key x hx
    refine ⟨n.first, (hold x hx).trans hkey, ?_⟩
    intro e
    exact hk (List.mem_map.mpr ⟨n, hn, e⟩))
  refine ⟨g, hg, hperm, ?_, ?_, ?_, hgs⟩
  · exact (perm_addr_middle dx dy _).nodup_iff.mpr (List.nodup_cons.mpr ⟨hfresh2, hd ▸ hc.addr_nodup⟩)
  · have h1 : (List.map node.first (dx ++ ⟨new_addr c.data, k, v⟩ :: dy)).Perm
        (k :: (dx ++ dy).map node.first) := by
      simp only [List.map_append, List.map_cons]; exact List.perm_middle
    have h2 : k ∉ (dx ++ dy).map node.first ∧ ((dx ++ dy).map node.first).Nodup := by
      rw [← hd]; exact ⟨hk, hc.key_unique⟩
    exact h1.nodup_iff.mpr (List.nodup_cons.mpr h2)
  · have h3 : c.gate.Perm ((dx ++ dy).map node.addr) := by
      rw [← hd]; exact hc.gate_perm
    have h4 := perm_addr_middle dx dy (⟨new_addr c.data, k, v⟩ : node K V)
    exact (hperm.trans (List.Perm.cons _ h3)).trans h4.symm

/-- Creating the entry of a new key in front of a valid position: the branch
`gate.emplace(data.emplace(cit, k, v))` of `insert`. -/
theorem insert_miss (c : core_table K V) (hc : invariant c) (k : K) (hk : k ∉ c.keys)
    (dx dy : chain K V) (hd : c.data = dx ++ dy) (v : V) :
    ∃ g, c.insert (pos dy) k v = some ⟨dx ++ ⟨new_addr c.data, k, v⟩ :: dy, g⟩ ∧
      g.Perm (new_addr c.data :: c.gate) ∧
      invariant (⟨dx ++ ⟨new_addr c.data, k, v⟩ :: dy, g⟩ : core_table K V) := by
  obtain ⟨g, hg, hperm, hinv⟩ := emplace_inv c hc k hk dx dy hd v
  refine ⟨g, ?_, hperm, hinv⟩
  have hnd := hc.addr_nodup
  rw [hd] at hnd
  unfold core_table.insert
  rw [hc.find_miss k hk]
  have := list_emplace_split dx dy hnd k v
  rw [← hd] at this
  simp only [this, hg, Option.map_some']

/-- The member function `insert` preserves the invariant, whatever its arguments. -/
theorem insert_inv (c : core_table K V) (hc : invariant c) (cit : iterator) (k : K) (v : V)
    (r : core_table K V) (h : c.insert cit k v = some r) : invariant r := by
  by_cases hk : k ∈ c.keys
  · obtain ⟨n, hn, e⟩ := List.mem_map.mp hk
    obtain ⟨dx, dy, hd⟩ := List.append_of_mem hn
    subst e
    have := insert_hit c hc dx dy n hd cit v
    rw [this.1] at h
    simp only [Option.some.injEq] at h
    rw [← h]
    exact this.2
  · unfold core_table.insert at h
    rw [hc.find_miss k hk] at h
    cases he : list_emplace c.data cit k v with
    | none => simp [he] at h
    | some p =>
      obtain ⟨d1, a⟩ := p
      obtain ⟨ea, dx, dy, hd, hr⟩ := list_emplace_some c.data cit k v d1 a he
      obtain ⟨g, hg, _, hinv⟩ := emplace_inv c hc k hk dx dy hd v
      subst ea hr
      simp only [he, hg, Option.map_some', Option.some.injEq] at h
      rw [← h]
      exact hinv

theorem invariant_empty : invariant (core_table.empty : core_table K V) :=
  ⟨List.nodup_nil, List.nodup_nil, List.Perm.refl _, List.Pairwise.nil⟩

/-- The one-entry container built by `core_table output {{k, v}}`. -/
theorem of_list_singleton (k : K) (v : V) :
    core_table.of_list [(k, v)] = some (⟨[⟨1, k, v⟩], [1]⟩ : core_table K V) := rfl

theorem invariant_singleton (k : K) (v : V) :
    invariant (⟨[⟨1, k, v⟩], [1]⟩ : core_table K V) :=
  ⟨by simp, by simp [core_table.keys], by simp, by simp⟩

omit [LinearOrder K] in
theorem deref_perm (d e : chain K V) (hd : (d.map node.addr).Nodup) (hp : e.Perm d)
    (a : Nat) : deref e a = deref d a := by
  have he : (e.map node.addr).Nodup := (hp.map node.addr).nodup_iff.mpr hd
  by_cases ha : a ∈ d.map node.addr
  · obtain ⟨n, hn, rfl⟩ := List.mem_map.mp ha
    rw [deref_of_mem d hd n hn, deref_of_mem e he n (hp.mem_iff.mpr hn)]
  · have ha2 : a ∉ e.map node.addr := fun h => ha ((hp.map node.addr).mem_iff.mp h)
    rw [deref_eq_none d a ha, deref_eq_none e a ha2]

/-- Relinking the nodes of `data` in another order keeps the invariant: this is
what `sort` and `reverse` do, and why they leave `gate` alone. -/
theorem invariant_of_perm (c : core_table K V) (hc : invariant c) (e : chain K V)
    (hp : e.Perm c.data) : invariant (⟨e, c.gate⟩ : core_table K V) := by
  refine ⟨?_, ?_, ?_, ?_⟩
  · exact (hp.map node.addr).nodup_iff.mpr hc.addr_nodup
  · exact (hp.map node.first).nodup_iff.mpr hc.key_unique
  · exact hc.gate_perm.trans (hp.map node.addr).symm
  · apply pairwise_key_lt_congr c.data e c.gate _ hc.gate_sorted
    intro x _
    simp [key_of, deref_perm c.data e hc.addr_nodup hp x]

/-- Removing a present key: the branch `data.erase(*it); gate.erase(it)` of `remove`. -/
theorem remove_hit (c : core_table K V) (hc : invariant c) (dx dy : chain K V)
    (n : node K V) (hd : c.data = dx ++ n :: dy) :
    c.remove n.first =
        some (⟨[⟨1, n.first, n.second⟩], [1]⟩, ⟨dx ++ dy, c.gate.erase n.addr⟩) ∧
      invariant (⟨dx ++ dy, c.gate.erase n.addr⟩ : core_table K V) := by
  have hn : n ∈ c.data := by rw [hd]; simp
  have hnd := hc.addr_nodup
  rw [hd] at hnd
  have hnx : n.addr ∉ dx.map node.addr := by
    simp only [List.map_append, List.map_cons] at hnd
    intro hmem
    exact (List.nodup_append.mp hnd).2.2 hmem (List.mem_cons_self _ _)
  have hmid := perm_addr_middle dx dy n
  have hnd2 : (n.addr :: (dx ++ dy).map node.addr).Nodup := hmid.nodup_iff.mp hnd
  have hgp : c.gate.Perm (n.addr :: (dx ++ dy).map node.addr) := by
    have := hc.gate_perm
    rw [hd] at this
    exact this.trans hmid
  have hgn : c.gate.Nodup := hgp.nodup_iff.mpr hnd2
  constructor
  · unfold core_table.remove
    rw [hc.find_hit n hn]
    simp only [deref_of_mem c.data hc.addr_nodup n hn, of_list_singleton]
    simp only [hd, list_erase_split dx dy n hnx, set_erase]
  · refine ⟨(List.nodup_cons.mp hnd2).2, ?_, ?_, ?_⟩
    · have := hc.key_unique
      unfold core_table.keys at this ⊢
      rw [hd] at this
      simp only [List.map_append, List.map_cons] at this ⊢
      exact this.sublist (List.Sublist.append_left (List.sublist_cons_self _ _) _)
    · have := hgp.erase n.addr
      simpa using this
    · have hsub : (c.gate.erase n.addr).Pairwise (key_lt c.data) :=
        hc.gate_sorted.sublist (List.erase_sublist _ _)
      apply pairwise_key_lt_congr c.data _ _ _ hsub
      intro x hx
      have hxa : x ≠ n.addr := (hgn.mem_erase_iff.mp hx).1
      rw [hd]
      exact (key_of_skip dx dy n x (Ne.symm hxa)).symm

/-- Removing an absent key changes nothing and returns the empty container. -/
theorem remove_miss (c : core_table K V) (hc : invariant c) (k : K) (hk : k ∉ c.keys) :
    c.remove k = some (core_table.empty, c) := by
  unfold core_table.remove
  rw [hc.find_miss k hk]

theorem remove_inv (c : core_table K V) (hc : invariant c) (k : K)
    (o r : core_table K V) (h : c.remove k = some (o, r)) : invariant o ∧ invariant r := by
  by_cases hk : k ∈ c.keys
  · obtain ⟨n, hn, e⟩ := List.mem_map.mp hk
    obtain ⟨dx, dy, hd⟩ := List.append_of_mem hn
    subst e
    have := remove_hit c hc dx dy n hd
    rw [this.1] at h
    simp only [Option.some.injEq, Prod.mk.injEq] at h
    rw [← h.1, ← h.2]
    exact ⟨invariant_singleton _ _, this.2⟩
  · rw [remove_miss c hc k hk] at h
    simp only [Option.some.injEq, Prod.mk.injEq] at h
    rw [← h.1, ← h.2]
    exact ⟨invariant_empty, hc⟩

theorem shift_inv (c : core_table K V) (hc : invariant c)
    (o r : core_table K V) (h : c.shift = some (o, r)) : invariant o ∧ invariant r := by
  unfold core_table.shift at h
  split at h
  · simp only [Option.some.injEq, Prod.mk.injEq] at h
    rw [← h.1, ← h.2]
    exact ⟨invariant_empty, hc⟩
  · cases hf : c.front with
    | none => simp [hf] at h
    | some n =>
      simp only [hf] at h
      exact remove_inv c hc n.first o r h

theorem pop_inv (c : core_table K V) (hc : invariant c)
    (o r : core_table K V) (h : c.pop = some (o, r)) : invariant o ∧ invariant r := by
  unfold core_table.pop at h
  split at h
  · simp only [Option.some.injEq, Prod.mk.injEq] at h
    rw [← h.1, ← h.2]
    exact ⟨invariant_empty, hc⟩
  · cases hf : c.back with
    | none => simp [hf] at h
    | some n =>
      simp only [hf] at h
      exact remove_inv c hc n.first o r h

/-- A loop `for (e : l) f(e)` keeps the invariant when each call does. -/
theorem foldlM_inv {α : Type} (f : core_table K V → α → Option (core_table K V))
    (hf : ∀ acc e r, invariant acc → f acc e = some r → invariant r) :
    ∀ (l : List α) (c r : core_table K V), invariant c → l.foldlM f c = some r →
      invariant r := by
  intro l
  induction l with
  | nil =>
    intro c r hc h
    simp only [List.foldlM_nil, pure, Option.some.injEq] at h
    exact h ▸ hc
  | cons x xs ih =>
    intro c r hc h
    simp only [List.foldlM_cons, bind, Option.bind_eq_some] at h
    obtain ⟨c1, h1, h2⟩ := h
    exact ih c1 r (hf c x c1 hc h1) h2

theorem of_list_inv (il : List (K × V)) (c : core_table K V)
    (h : core_table.of_list il = some c) : invariant c :=
  foldlM_inv _ (fun acc e r ha hr => insert_inv acc ha _ e.1 e.2 r hr) il _ c
    invariant_empty h

/-! ## The overloads that take the source by rvalue reference -/

/-- The receiver does not see whether its arguments were moved or copied. -/
theorem insert_move_fst (mf : moved_from K V) (c : core_table K V) (cit : iterator)
    (e : node K V) :
    (c.insert_move mf cit e).map Prod.fst = c.insert cit e.first e.second := by
  unfold core_table.insert_move core_table.insert
  cases set_find c.data c.gate e.first with
  | none => rfl
  | some it =>
    cases it with
    | none =>
      cases list_emplace c.data cit e.first e.second with
      | none => rfl
      | some q =>
        obtain ⟨d, a⟩ := q
        cases hg : set_emplace d c.gate a <;> simp [hg]
    | some a =>
      cases hd : list_assign c.data a e.second <;> simp [hd]

theorem consume_fst (mf : moved_from K V) (p : core_table K V → iterator) :
    ∀ (l : chain K V) (c : core_table K V),
      (core_table.consume mf p l c).map Prod.fst =
        l.foldlM (fun acc e => acc.insert (p acc) e.first e.second) c := by
  intro l
  induction l with
  | nil => intro c; rfl
  | cons e es ih =>
    intro c
    have h := insert_move_fst mf c (p c) e
    rw [List.foldlM_cons, ← h]
    unfold core_table.consume
    cases hm : c.insert_move mf (p c) e with
    | none => rfl
    | some q =>
      obtain ⟨c1, e1⟩ := q
      simp only [Option.map_some', Option.bind_eq_bind, Option.some_bind, Option.map_map]
      rw [← ih c1]
      cases core_table.consume mf p es c1 <;> rfl

/-- The receiver of a call of `op` is the same for the `&&` overload and for the
`const &` overload. -/
theorem apply_move_receiver [LinearOrder V] (mf : moved_from K V) (c ct : core_table K V)
    (cit : iterator) :
    (op.apply mf c (op.append_move ct)).map Prod.fst = c.append ct ∧
      (op.apply mf c (op.prepend_move ct)).map Prod.fst = c.prepend ct ∧
      (op.apply mf c (op.splice_move cit ct)).map Prod.fst = c.splice cit ct := by
  refine ⟨?_, ?_, ?_⟩
  · have h := consume_fst mf (fun acc => acc.end_) ct.data c
    simp only [op.apply, core_table.append_move, Option.map_map]
    exact h
  · have h := consume_fst mf (fun acc => acc.begin) ct.data c
    simp only [op.apply, core_table.prepend_move, Option.map_map]
    exact h
  · have h := consume_fst mf (fun _ => cit) ct.data c
    simp only [op.apply, core_table.splice_move, Option.map_map]
    exact h

/-- A move that leaves keys as they were leaves the keys of the source entry. -/
theorem insert_move_snd (mf : moved_from K V) (hmf : ∀ k, mf.first k = k)
    (c : core_table K V) (cit : iterator) (e : node K V) (r : core_table K V)
    (e1 : node K V) (h : c.insert_move mf cit e = some (r, e1)) :
    (e1.addr, e1.first) = (e.addr, e.first) := by
  unfold core_table.insert_move at h
  cases hf : set_find c.data c.gate e.first with
  | none => simp [hf] at h
  | some it =>
    cases it with
    | none =>
      simp only [hf] at h
      cases hl : list_emplace c.data cit e.first e.second with
      | none => simp [hl] at h
      | some q =>
        obtain ⟨d, a⟩ := q
        simp only [hl, Option.map_eq_some', Prod.mk.injEq] at h
        obtain ⟨g, _, _, e2⟩ := h
        rw [← e2]
        simp [hmf]
    | some a =>
      simp only [hf, Option.map_eq_some', Prod.mk.injEq] at h
      obtain ⟨d, _, _, e2⟩ := h
      rw [← e2]

theorem consume_snd (mf : moved_from K V) (hmf : ∀ k, mf.first k = k)
    (p : core_table K V → iterator) :
    ∀ (l : chain K V) (c r : core_table K V) (l1 : chain K V),
      core_table.consume mf p l c = some (r, l1) →
        l1.map (fun n => (n.addr, n.first)) = l.map (fun n => (n.addr, n.first)) := by
  intro l
  induction l with
  | nil =>
    intro c r l1 h
    simp only [core_table.consume, Option.some.injEq, Prod.mk.injEq] at h
    rw [← h.2]
  | cons e es ih =>
    intro c r l1 h
    unfold core_table.consume at h
    cases hm : c.insert_move mf (p c) e with
    | none => simp [hm] at h
    | some q =>
      obtain ⟨c1, e1⟩ := q
      simp only [hm, Option.map_eq_some', Prod.mk.injEq] at h
      obtain ⟨⟨r2, l2⟩, h2, _, e2⟩ := h
      rw [← e2, List.map_cons, List.map_cons, ih c1 r2 l2 h2,
        insert_move_snd mf hmf c (p c) e c1 e1 hm]

omit [LinearOrder K] in
theorem key_of_congr :
    ∀ (d e : chain K V),
      e.map (fun n => (n.addr, n.first)) = d.map (fun n => (n.addr, n.first)) →
        ∀ a, key_of e a = key_of d a := by
  intro d
  induction d with
  | nil =>
    intro e h a
    rw [List.map_nil, List.map_eq_nil_iff] at h
    rw [h]
  | cons x xs ih =>
    intro e h a
    cases e with
    | nil => simp at h
    | cons y ys =>
      simp only [List.map_cons, List.cons.injEq, Prod.mk.injEq] at h
      have := ih ys h.2 a
      simp only [key_of, deref] at this ⊢
      by_cases hx : x.addr = a
      · simp [List.find?_cons, hx, h.1.1, h.1.2]
      · simp [List.find?_cons, hx, h.1.1, this]

/-- A container whose nodes keep their addresses and keys keeps the invariant. -/
theorem invariant_of_same_keys (c : core_table K V) (hc : invariant c) (e : chain K V)
    (h : e.map (fun n => (n.addr, n.first)) = c.data.map (fun n => (n.addr, n.first))) :
    invariant (⟨e, c.gate⟩ : core_table K V) := by
  have ha : e.map node.addr = c.data.map node.addr := by
    have := congrArg (List.map Prod.fst) h
    simpa [List.map_map, Function.comp_def] using this
  have hk : e.map node.first = c.data.map node.first := by
    have := congrArg (List.map Prod.snd) h
    simpa [List.map_map, Function.comp_def] using this
  refine ⟨?_, ?_, ?_, ?_⟩
  · show (e.map node.addr).Nodup
    rw [ha]; exact hc.addr_nodup
  · show (e.map node.first).Nodup
    rw [hk]; exact hc.key_unique
  · show c.gate.Perm (e.map node.addr)
    rw [ha]; exact hc.gate_perm
  · exact pairwise_key_lt_congr c.data e c.gate (fun x _ => key_of_congr c.data e h x)
      hc.gate_sorted

/-- The source of a `&&` overload keeps the invariant when moving a key leaves the
key as it was. -/
theorem apply_source_inv [LinearOrder V] (mf : moved_from K V) (hmf : ∀ k, mf.first k = k)
    (c ct : core_table K V) (hct : invariant ct) (o : op K V) (r s : core_table K V)
    (hsrc : op.source o = some ct) (h : op.apply mf c o = some (r, some s)) :
    invariant s := by
  have key : ∀ (p : core_table K V → iterator) (st : core_table K V),
      (core_table.consume mf p st.data c).map
          (fun q => (q.1, some ({ st with data := q.2 } : core_table K V))) =
        some (r, some s) → st = ct → invariant s := by
    intro p st hq hst
    subst hst
    simp only [Option.map_eq_some', Prod.mk.injEq, Option.some.injEq] at hq
    obtain ⟨⟨r1, l1⟩, h1, _, e2⟩ := hq
    rw [← e2]
    exact invariant_of_same_keys st hct l1 (consume_snd mf hmf p st.data c r1 l1 h1)
  cases o with
  | append_move st =>
    simp only [op.source, Option.some.injEq] at hsrc
    apply key (fun acc => acc.end_) st _ hsrc
    simpa [op.apply, core_table.append_move, Option.map_map, Function.comp_def] using h
  | prepend_move st =>
    simp only [op.source, Option.some.injEq] at hsrc
    apply key (fun acc => acc.begin) st _ hsrc
    simpa [op.apply, core_table.prepend_move, Option.map_map, Function.comp_def] using h
  | splice_move cit st =>
    simp only [op.source, Option.some.injEq] at hsrc
    apply key (fun _ => cit) st _ hsrc
    simpa [op.apply, core_table.splice_move, Option.map_map, Function.comp_def] using h
  | _ => simp [op.source] at hsrc

/-- Every public mutating operation preserves the invariant of its receiver. -/
theorem apply_inv [LinearOrder V] (mf : moved_from K V) (c : core_table K V)
    (hc : invariant c) (o : op K V) (r : core_table K V) (s : Option (core_table K V))
    (h : op.apply mf c o = some (r, s)) : invariant r := by
  have hloop : ∀ (p : core_table K V → iterator) (l : chain K V),
      l.foldlM (fun acc e => acc.insert (p acc) e.first e.second) c = some r →
        invariant r :=
    fun p l hl =>
      foldlM_inv _ (fun acc e r ha hr => insert_inv acc ha _ e.first e.second r hr) l c r hc hl
  have hfst : (op.apply mf c o).map Prod.fst = some r := by rw [h]; rfl
  cases o with
  | insert cit k v =>
    simp only [op.apply, Option.map_map] at hfst
    exact insert_inv c hc cit k v r (by simpa [Function.comp_def] using hfst)
  | push k v =>
    simp only [op.apply, Option.map_map] at hfst
    exact insert_inv c hc c.end_ k v r (by simpa [Function.comp_def] using hfst)
  | unshift k v =>
    simp only [op.apply, Option.map_map] at hfst
    exact insert_inv c hc c.begin k v r (by simpa [Function.comp_def] using hfst)
  | append ct =>
    simp only [op.apply, Option.map_map] at hfst
    exact hloop (fun acc => acc.end_) ct.data (by simpa [Function.comp_def] using hfst)
  | prepend ct =>
    simp only [op.apply, Option.map_map] at hfst
    exact hloop (fun acc => acc.begin) ct.data (by simpa [Function.comp_def] using hfst)
  | splice cit ct =>
    simp only [op.apply, Option.map_map] at hfst
    exact hloop (fun _ => cit) ct.data (by simpa [Function.comp_def] using hfst)
  | append_move ct =>
    rw [(apply_move_receiver mf c ct none).1] at hfst
    exact hloop (fun acc => acc.end_) ct.data hfst
  | prepend_move ct =>
    rw [(apply_move_receiver mf c ct none).2.1] at hfst
    exact hloop (fun acc => acc.begin) ct.data hfst
  | splice_move cit ct =>
    rw [(apply_move_receiver mf c ct cit).2.2] at hfst
    exact hloop (fun _ => cit) ct.data hfst
  | remove k =>
    simp only [op.apply, Option.map_eq_some', Prod.mk.injEq] at h
    obtain ⟨⟨o1, r1⟩, h1, e, _⟩ := h
    exact e ▸ (remove_inv c hc k o1 r1 h1).2
  | shift =>
    simp only [op.apply, Option.map_eq_some', Prod.mk.injEq] at h
    obtain ⟨⟨o1, r1⟩, h1, e, _⟩ := h
    exact e ▸ (shift_inv c hc o1 r1 h1).2
  | pop =>
    simp only [op.apply, Option.map_eq_some', Prod.mk.injEq] at h
    obtain ⟨⟨o1, r1⟩, h1, e, _⟩ := h
    exact e ▸ (pop_inv c hc o1 r1 h1).2
  | clear =>
    simp only [op.apply, Option.some.injEq, Prod.mk.injEq] at h
    exact h.1 ▸ invariant_empty
  | sort p =>
    simp only [op.apply, Option.some.injEq, Prod.mk.injEq] at h
    exact h.1 ▸ invariant_of_perm c hc _ (List.perm_insertionSort _ _)
  | sort_by_key =>
    simp only [op.apply, Option.some.injEq, Prod.mk.injEq] at h
    exact h.1 ▸ invariant_of_perm c hc _ (List.perm_insertionSort _ _)
  | sort_by_value =>
    simp only [op.apply, Option.some.injEq, Prod.mk.injEq] at h
    exact h.1 ▸ invariant_of_perm c hc _ (List.perm_insertionSort _ _)
  | reverse =>
    simp only [op.apply, Option.some.injEq, Prod.mk.injEq] at h
    exact h.1 ▸ invariant_of_perm c hc _ (List.reverse_perm _)

/-! ## Every call with valid positions returns -/

theorem invariant.length_eq {c : core_table K V} (hc : invariant c) :
    c.length = c.data.length := by
  have := hc.gate_perm.length_eq
  simpa [core_table.length] using this

omit [LinearOrder K] in
theorem pos_valid (dx dy : chain K V) (c : core_table K V) (hd : c.data = dx ++ dy) :
    c.valid (pos dy) := by
  intro a ha
  cases dy with
  | nil => simp [pos] at ha
  | cons n ns =>
    simp only [pos, List.head?_cons, Option.map_some', Option.some.injEq] at ha
    rw [hd, ← ha]
    simp

/-- On a valid position `insert` returns, and the nodes that were live stay live. -/
theorem insert_total (c : core_table K V) (hc : invariant c) (cit : iterator)
    (hv : c.valid cit) (k : K) (v : V) :
    ∃ r, c.insert cit k v = some r ∧ invariant r ∧
      ∀ a ∈ c.data.map node.addr, a ∈ r.data.map node.addr := by
  by_cases hk : k ∈ c.keys
  · obtain ⟨n, hn, e⟩ := List.mem_map.mp hk
    obtain ⟨dx, dy, hd⟩ := List.append_of_mem hn
    subst e
    have := insert_hit c hc dx dy n hd cit v
    refine ⟨_, this.1, this.2, ?_⟩
    intro a ha
    simpa [hd] using ha
  · have hsplit : ∃ dx dy, c.data = dx ++ dy ∧ cit = pos dy := by
      cases cit with
      | none => exact ⟨c.data, [], by simp, rfl⟩
      | some a =>
        obtain ⟨n, hn, e⟩ := List.mem_map.mp (hv a rfl)
        obtain ⟨dx, dy, hd, _, _⟩ := split_at_mem c.data hc.addr_nodup n hn
        exact ⟨dx, n :: dy, hd, by simp [pos, e]⟩
    obtain ⟨dx, dy, hd, hp⟩ := hsplit
    obtain ⟨g, hi, _, hr⟩ := insert_miss c hc k hk dx dy hd v
    refine ⟨_, hp ▸ hi, hr, ?_⟩
    intro a ha
    rw [hd] at ha
    simp only [List.map_append, List.mem_append, List.map_cons, List.mem_cons] at ha ⊢
    rcases ha with h1 | h1
    · exact Or.inl h1
    · exact Or.inr (Or.inr h1)

omit [LinearOrder K] in
/-- A loop `for (e : l) f(e)` returns when each call does. -/
theorem foldlM_total {α : Type} (Q : core_table K V → Prop)
    (f : core_table K V → α → Option (core_table K V))
    (hf : ∀ acc e, Q acc → ∃ r, f acc e = some r ∧ Q r) :
    ∀ (l : List α) (c : core_table K V), Q c → ∃ r, l.foldlM f c = some r ∧ Q r := by
  intro l
  induction l with
  | nil => intro c hc; exact ⟨c, rfl, hc⟩
  | cons x xs ih =>
    intro c hc
    obtain ⟨c1, h1, hq⟩ := hf c x hc
    obtain ⟨r, h2, hr⟩ := ih c1 hq
    exact ⟨r, by simp only [List.foldlM_cons, h1, Option.bind_eq_bind, Option.some_bind, h2], hr⟩

theorem remove_total (c : core_table K V) (hc : invariant c) (k : K) :
    ∃ o r, c.remove k = some (o, r) := by
  by_cases hk : k ∈ c.keys
  · obtain ⟨n, hn, e⟩ := List.mem_map.mp hk
    obtain ⟨dx, dy, hd⟩ := List.append_of_mem hn
    subst e
    exact ⟨_, _, (remove_hit c hc dx dy n hd).1⟩
  · exact ⟨_, _, remove_miss c hc k hk⟩

theorem shift_total (c : core_table K V) (hc : invariant c) :
    ∃ o r, c.shift = some (o, r) := by
  unfold core_table.shift
  split
  · exact ⟨_, _, rfl⟩
  · cases hf : c.front with
    | none =>
      rename_i hne
      have hlen := hc.length_eq
      simp only [core_table.front, List.head?_eq_none_iff] at hf
      simp [core_table.is_empty, core_table.length, hf] at hne hlen
      exact absurd hlen hne
    | some n => exact remove_total c hc n.first

theorem pop_total (c : core_table K V) (hc : invariant c) :
    ∃ o r, c.pop = some (o, r) := by
  unfold core_table.pop
  split
  · exact ⟨_, _, rfl⟩
  · cases hf : c.back with
    | none =>
      rename_i hne
      have hlen := hc.length_eq
      simp only [core_table.back, List.getLast?_eq_none_iff] at hf
      simp [core_table.is_empty, core_table.length, hf] at hne hlen
      exact absurd hlen hne
    | some n => exact remove_total c hc n.first

/-- Every public mutating operation returns when the positions passed to it are
valid: no call on a container that satisfies the invariant dereferences a dead
iterator. -/
theorem apply_total [LinearOrder V] (mf : moved_from K V) (c : core_table K V)
    (hc : invariant c) (o : op K V) (hv : op.valid c o) :
    ∃ r s, op.apply mf c o = some (r, s) := by
  have hend : ∀ l : chain K V, ∃ r,
      l.foldlM (fun acc e => core_table.insert acc acc.end_ e.first e.second) c = some r := by
    intro l
    obtain ⟨r, h, _⟩ := foldlM_total invariant
      (fun acc (e : node K V) => acc.insert acc.end_ e.first e.second)
      (fun acc e ha => by
        obtain ⟨r, h, hr, _⟩ := insert_total acc ha acc.end_ (by intro a ha; cases ha)
          e.first e.second
        exact ⟨r, h, hr⟩) l c hc
    exact ⟨r, h⟩
  have hbegin : ∀ l : chain K V, ∃ r,
      l.foldlM (fun acc e => core_table.insert acc acc.begin e.first e.second) c = some r := by
    intro l
    obtain ⟨r, h, _⟩ := foldlM_total invariant
      (fun acc (e : node K V) => acc.insert acc.begin e.first e.second)
      (fun acc e ha => by
        obtain ⟨r, h, hr, _⟩ := insert_total acc ha acc.begin (pos_valid [] acc.data acc rfl)
          e.first e.second
        exact ⟨r, h, hr⟩) l c hc
    exact ⟨r, h⟩
  have hat : ∀ (cit : iterator) (l : chain K V), c.valid cit → ∃ r,
      l.foldlM (fun acc e => core_table.insert acc cit e.first e.second) c = some r := by
    intro cit l hcit
    obtain ⟨r, h, _⟩ := foldlM_total (fun acc => invariant acc ∧ acc.valid cit)
      (fun acc (e : node K V) => acc.insert cit e.first e.second)
      (fun acc e ha => by
        obtain ⟨r, h, hr, hsub⟩ := insert_total acc ha.1 cit ha.2 e.first e.second
        exact ⟨r, h, hr, fun a e => hsub a (ha.2 a e)⟩) l c ⟨hc, hcit⟩
    exact ⟨r, h⟩
  have hsome : ∀ (x : Option (core_table K V × Option (core_table K V))) (r : core_table K V),
      x.map Prod.fst = some r → ∃ r s, x = some (r, s) := by
    intro x r hx
    cases x with
    | none => simp at hx
    | some q => exact ⟨q.1, q.2, rfl⟩
  cases o with
  | insert cit k v =>
    obtain ⟨r, h, _⟩ := insert_total c hc cit hv k v
    exact ⟨r, none, by simp [op.apply, h]⟩
  | push k v =>
    obtain ⟨r, h, _⟩ := insert_total c hc c.end_ (by intro a ha; cases ha) k v
    exact ⟨r, none, by simp [op.apply, core_table.push, h]⟩
  | unshift k v =>
    obtain ⟨r, h, _⟩ := insert_total c hc c.begin (pos_valid [] c.data c rfl) k v
    exact ⟨r, none, by simp [op.apply, core_table.unshift, h]⟩
  | append ct =>
    obtain ⟨r, h⟩ := hend ct.data
    have h2 : c.append ct = some r := h
    exact ⟨r, none, by simp [op.apply, h2]⟩
  | prepend ct =>
    obtain ⟨r, h⟩ := hbegin ct.data
    have h2 : c.prepend ct = some r := h
    exact ⟨r, none, by simp [op.apply, h2]⟩
  | splice cit ct =>
    obtain ⟨r, h⟩ := hat cit ct.data hv
    have h2 : c.splice cit ct = some r := h
    exact ⟨r, none, by simp [op.apply, h2]⟩
  | append_move ct =>
    obtain ⟨r, h⟩ := hend ct.data
    exact hsome _ r ((apply_move_receiver mf c ct none).1.trans h)
  | prepend_move ct =>
    obtain ⟨r, h⟩ := hbegin ct.data
    exact hsome _ r ((apply_move_receiver mf c ct none).2.1.trans h)
  | splice_move cit ct =>
    obtain ⟨r, h⟩ := hat cit ct.data hv
    exact hsome _ r ((apply_move_receiver mf c ct cit).2.2.trans h)
  | remove k =>
    obtain ⟨o1, r, h⟩ := remove_total c hc k
    exact ⟨r, none, by simp [op.apply, h]⟩
  | shift =>
    obtain ⟨o1, r, h⟩ := shift_total c hc
    exact ⟨r, none, by simp [op.apply, h]⟩
  | pop =>
    obtain ⟨o1, r, h⟩ := pop_total c hc
    exact ⟨r, none, by simp [op.apply, h]⟩
  | clear => exact ⟨_, _, rfl⟩
  | sort p => exact ⟨_, _, rfl⟩
  | sort_by_key => exact ⟨_, _, rfl⟩
  | sort_by_value => exact ⟨_, _, rfl⟩
  | reverse => exact ⟨_, _, rfl⟩

/-- Every reachable container satisfies the invariant, unless it has been the `&&`
source of a call and moving a key changes the key. -/
theorem reachable_inv [LinearOrder V] (mf : moved_from K V) (b : Bool) (c : core_table K V)
    (h : reachable mf b c) (hb : b = false ∨ ∀ k, mf.first k = k) : invariant c := by
  induction h with
  | empty => exact invariant_empty
  | of_list il c h => exact of_list_inv il c h
  | receiver b c o r s _ h ih => exact apply_inv mf c (ih hb) o r s h
  | source b1 b2 c ct o r s _ _ hsrc h _ ih2 =>
    rcases hb with hb | hmf
    · cases hb
    · exact apply_source_inv mf hmf c ct (ih2 (Or.inr hmf)) o r s hsrc h

/-! ## What the observers return under the invariant -/

omit [LinearOrder K] in
theorem entries_split (d : chain K V) (xs ys : List (K × V)) (h : entries d = xs ++ ys) :
    ∃ dx dy, d = dx ++ dy ∧ entries dx = xs ∧ entries dy = ys :=
  List.map_eq_append_iff.mp h

omit [LinearOrder K] in
theorem iter_at_split (c : core_table K V) (dx dy : chain K V) (hd : c.data = dx ++ dy) :
    c.iter_at dx.length = pos dy := by
  simp [core_table.iter_at, hd]

omit [LinearOrder K] in
theorem entries_length (d : chain K V) : (entries d).length = d.length := by
  simp [entries]

theorem invariant.contains_key_eq {c : core_table K V} (hc : invariant c) (k : K) :
    c.contains_key k = some (decide (k ∈ c.keys)) := by
  unfold core_table.contains_key
  by_cases hk : k ∈ c.keys
  · obtain ⟨n, hn, e⟩ := List.mem_map.mp hk
    subst e
    rw [hc.find_hit n hn]
    simp [hk]
  · rw [hc.find_miss k hk]
    simp [hk]

theorem invariant.value_at_mem [Inhabited V] {c : core_table K V} (hc : invariant c)
    (n : node K V) (hn : n ∈ c.data) : c.value_at n.first = some n.second := by
  unfold core_table.value_at
  rw [hc.find_hit n hn]
  simp [deref_of_mem c.data hc.addr_nodup n hn]

theorem invariant.value_at_miss [Inhabited V] {c : core_table K V} (hc : invariant c)
    (k : K) (hk : k ∉ c.keys) : c.value_at k = some default := by
  unfold core_table.value_at
  rw [hc.find_miss k hk]

/-! ## The loops of splice, append and prepend -/

omit [LinearOrder K] in
theorem keys_eq_seq (c : core_table K V) : c.keys = c.seq.map Prod.fst := by
  simp [core_table.keys, core_table.seq, entries]

omit [LinearOrder K] in
theorem values_eq_seq (c : core_table K V) : c.values = c.seq.map Prod.snd := by
  simp [core_table.values, core_table.seq, entries]

/-- Inserting pairs with new, distinct keys one after the other in front of a fixed
position puts them there in the order of the loop. -/
theorem splice_pairs (dy : chain K V) :
    ∀ (l : List (K × V)) (c : core_table K V) (dx : chain K V), invariant c →
      c.data = dx ++ dy → (l.map Prod.fst).Nodup → (∀ e ∈ l, e.1 ∉ c.keys) →
      ∃ r, l.foldlM (fun acc e => core_table.insert acc (pos dy) e.1 e.2) c = some r ∧
        invariant r ∧ r.seq = entries dx ++ l ++ entries dy ∧
        r.length = c.length + l.length := by
  intro l
  induction l with
  | nil =>
    intro c dx hc hd _ _
    exact ⟨c, rfl, hc, by simp [core_table.seq, hd, entries], rfl⟩
  | cons e es ih =>
    intro c dx hc hd hl hdisj
    rw [List.map_cons, List.nodup_cons] at hl
    obtain ⟨g, hi, hperm, hr⟩ := insert_miss c hc e.1 (hdisj e (List.mem_cons_self _ _))
      dx dy hd e.2
    have hdisj1 : ∀ f ∈ es, f.1 ∉ core_table.keys
        (⟨dx ++ ⟨new_addr c.data, e.1, e.2⟩ :: dy, g⟩ : core_table K V) := by
      intro f hf hmem
      have hfc := hdisj f (List.mem_cons_of_mem _ hf)
      simp only [core_table.keys, hd, List.map_append, List.map_cons, List.mem_append,
        List.mem_cons] at hmem hfc
      rcases hmem with h1 | h1 | h1
      · exact hfc (Or.inl h1)
      · exact hl.1 (List.mem_map.mpr ⟨f, hf, h1⟩)
      · exact hfc (Or.inr h1)
    obtain ⟨r, hfold, hinv, hseq, hlen⟩ := ih _ (dx ++ [⟨new_addr c.data, e.1, e.2⟩]) hr
      (by simp) hl.2 hdisj1
    refine ⟨r, ?_, hinv, ?_, ?_⟩
    · simp only [List.foldlM_cons, hi, Option.bind_eq_bind, Option.some_bind]
      exact hfold
    · rw [hseq]
      simp [entries]
    · rw [hlen]
      have := hperm.length_eq
      simp only [core_table.length, List.length_cons] at this ⊢
      omega

/-- Unshifting pairs with new, distinct keys one after the other puts each in front
of the ones unshifted before it. -/
theorem prepend_pairs :
    ∀ (l : List (K × V)) (c : core_table K V), invariant c →
      (l.map Prod.fst).Nodup → (∀ e ∈ l, e.1 ∉ c.keys) →
      ∃ r, l.foldlM (fun acc e => core_table.unshift acc e.1 e.2) c = some r ∧
        invariant r ∧ r.seq = l.reverse ++ c.seq ∧ r.length = c.length + l.length := by
  intro l
  induction l with
  | nil =>
    intro c hc _ _
    exact ⟨c, rfl, hc, by simp, rfl⟩
  | cons e es ih =>
    intro c hc hl hdisj
    rw [List.map_cons, List.nodup_cons] at hl
    obtain ⟨g, hi, hperm, hr⟩ := insert_miss c hc e.1 (hdisj e (List.mem_cons_self _ _))
      [] c.data rfl e.2
    have hdisj1 : ∀ f ∈ es, f.1 ∉ core_table.keys
        (⟨[] ++ ⟨new_addr c.data, e.1, e.2⟩ :: c.data, g⟩ : core_table K V) := by
      intro f hf hmem
      have hfc := hdisj f (List.mem_cons_of_mem _ hf)
      simp only [core_table.keys, List.nil_append, List.map_cons, List.mem_cons] at hmem hfc
      rcases hmem with h1 | h1
      · exact hl.1 (List.mem_map.mpr ⟨f, hf, h1⟩)
      · exact hfc h1
    obtain ⟨r, hfold, hinv, hseq, hlen⟩ := ih _ hr hl.2 hdisj1
    have hu : c.unshift e.1 e.2 =
        some ⟨[] ++ ⟨new_addr c.data, e.1, e.2⟩ :: c.data, g⟩ := hi
    refine ⟨r, ?_, hinv, ?_, ?_⟩
    · simp only [List.foldlM_cons, hu, Option.bind_eq_bind, Option.some_bind]
      exact hfold
    · rw [hseq]
      simp [core_table.seq, entries]
    · rw [hlen]
      have := hperm.length_eq
      simp only [core_table.length, List.length_cons] at this ⊢
      omega

/-! ## Construction from a list, copy, and the remove family on sequences -/

/-- Construction from a list of pairs with distinct keys yields that very list. -/
theorem of_list_nodup (l : List (K × V)) (hl : (l.map Prod.fst).Nodup) :
    ∃ r, core_table.of_list l = some r ∧ invariant r ∧ r.seq = l ∧ r.length = l.length := by
  obtain ⟨r, hfold, hinv, hseq, hlen⟩ := splice_pairs [] l (core_table.empty : core_table K V)
    [] invariant_empty rfl hl (by intro e _; simp [core_table.keys, core_table.empty])
  refine ⟨r, hfold, hinv, ?_, ?_⟩
  · rw [hseq]; simp [entries]
  · rw [hlen]; simp [core_table.length, core_table.empty]

/-- The copy constructor pushes the entries of the source in order. -/
theorem copy_eq_of_list (c : core_table K V) : core_table.copy c = core_table.of_list c.seq :=
  (List.foldlM_map (fun n : node K V => (n.first, n.second))
    (fun acc e => core_table.push acc e.1 e.2) c.data core_table.empty).symm

theorem copy_spec (c : core_table K V) (hc : c.keys.Nodup) :
    ∃ r, core_table.copy c = some r ∧ invariant r ∧ r.seq = c.seq ∧
      r.length = c.seq.length := by
  rw [copy_eq_of_list]
  exact of_list_nodup c.seq (by rw [← keys_eq_seq]; exact hc)

/-- The method `remove` at a present key, on sequences. -/
theorem remove_seq (c : core_table K V) (hc : invariant c) (xs ys : List (K × V))
    (k : K) (v : V) (hs : c.seq = xs ++ (k, v) :: ys) :
    ∃ r, c.remove k = some (⟨[⟨1, k, v⟩], [1]⟩, r) ∧ invariant r ∧ r.seq = xs ++ ys ∧
      r.length + 1 = c.length ∧ k ∉ r.keys := by
  obtain ⟨dx, dy1, hd, hx, hy1⟩ := entries_split c.data xs ((k, v) :: ys) hs
  obtain ⟨n, dy, e1, e2, hy⟩ := List.map_eq_cons_iff.mp hy1
  subst e1
  simp only [Prod.mk.injEq] at e2
  obtain ⟨ek, ev⟩ := e2
  subst ek ev
  obtain ⟨hrm, hr⟩ := remove_hit c hc dx dy n hd
  refine ⟨_, hrm, hr, ?_, ?_, ?_⟩
  · simp [core_table.seq, entries, ← hx, ← hy]
  · rw [hr.length_eq, hc.length_eq, hd]
    simp
    omega
  · have hku := hc.key_unique
    simp only [core_table.keys, hd, List.map_append, List.map_cons] at hku
    have h1 := (List.nodup_append.mp hku).2.2
    have h2 := (List.nodup_cons.mp (List.nodup_append.mp hku).2.1).1
    simp only [core_table.keys, List.map_append, List.mem_append, not_or]
    exact ⟨fun h => h1 h (List.mem_cons_self _ _), h2⟩

theorem invariant.is_empty_eq {c : core_table K V} (hc : invariant c) :
    c.is_empty = c.seq.isEmpty := by
  have h := hc.length_eq
  unfold core_table.length at h
  unfold core_table.is_empty core_table.seq entries
  cases hg : c.gate <;> cases hd : c.data <;> simp [hg, hd] at h ⊢

/-- The method `shift` on a non-empty sequence. -/
theorem shift_seq (c : core_table K V) (hc : invariant c) (xs : List (K × V))
    (k : K) (v : V) (hs : c.seq = (k, v) :: xs) :
    ∃ r, c.shift = some (⟨[⟨1, k, v⟩], [1]⟩, r) ∧ invariant r ∧ r.seq = xs ∧
      r.length + 1 = c.length ∧ k ∉ r.keys := by
  obtain ⟨r, hrm, hr⟩ := remove_seq c hc [] xs k v hs
  refine ⟨r, ?_, hr⟩
  obtain ⟨n, dy, hd, e, _⟩ := List.map_eq_cons_iff.mp hs
  simp only [Prod.mk.injEq] at e
  unfold core_table.shift
  rw [hc.is_empty_eq, hs]
  simp only [List.isEmpty_cons, Bool.false_eq_true, if_false, core_table.front, hd,
    List.head?_cons, e.1]
  exact hrm

/-- The method `pop` on a non-empty sequence. -/
theorem pop_seq (c : core_table K V) (hc : invariant c) (xs : List (K × V))
    (k : K) (v : V) (hs : c.seq = xs ++ [(k, v)]) :
    ∃ r, c.pop = some (⟨[⟨1, k, v⟩], [1]⟩, r) ∧ invariant r ∧ r.seq = xs ∧
      r.length + 1 = c.length ∧ k ∉ r.keys := by
  obtain ⟨r, hrm, hinv, hseq, hr⟩ := remove_seq c hc xs [] k v hs
  refine ⟨r, ?_, hinv, by simpa using hseq, hr⟩
  obtain ⟨dx, dy1, hd, _, hy1⟩ := entries_split c.data xs [(k, v)] hs
  obtain ⟨n, dy, e1, e, hy⟩ := List.map_eq_cons_iff.mp hy1
  have hdy : dy = [] := List.map_eq_nil_iff.mp hy
  subst e1 hdy
  simp only [Prod.mk.injEq] at e
  unfold core_table.pop
  rw [hc.is_empty_eq, hs]
  have hb : c.back = some n := by simp [core_table.back, hd]
  have hne : (xs ++ [(k, v)]).isEmpty = false := by simp
  simp only [hne, Bool.false_eq_true, if_false, hb, e.1]
  exact hrm

/-- The methods `shift` and `pop` on the empty sequence. -/
theorem shift_pop_empty (c : core_table K V) (hc : invariant c) (hs : c.seq = []) :
    c.shift = some (core_table.empty, c) ∧ c.pop = some (core_table.empty, c) := by
  unfold core_table.shift core_table.pop
  rw [hc.is_empty_eq, hs]
  simp

/-! ## Construction from a list with repeated keys -/

omit [LinearOrder K] in
theorem first_occurrences_mem {α : Type} [DecidableEq α] (l : List α) (a : α) :
    a ∈ first_occurrences l ↔ a ∈ l := by
  induction l with
  | nil => simp [first_occurrences]
  | cons b l ih =>
    simp only [first_occurrences, List.mem_cons, List.mem_filter, ih, decide_eq_true_eq]
    by_cases h : a = b <;> simp [h]

omit [LinearOrder K] in
theorem first_occurrences_nodup {α : Type} [DecidableEq α] (l : List α) :
    (first_occurrences l).Nodup := by
  induction l with
  | nil => simp [first_occurrences]
  | cons b l ih =>
    simp only [first_occurrences, List.nodup_cons, List.mem_filter, decide_eq_true_eq]
    exact ⟨fun h => h.2 rfl, ih.filter _⟩

omit [LinearOrder K] in
theorem first_occurrences_concat {α : Type} [DecidableEq α] (l : List α) (a : α) :
    first_occurrences (l ++ [a]) = first_occurrences l ++ (if a ∈ l then [] else [a]) := by
  induction l with
  | nil => simp [first_occurrences]
  | cons b l ih =>
    rw [List.cons_append]
    simp only [first_occurrences]
    rw [ih, List.filter_append]
    by_cases hab : a = b
    · subst hab
      by_cases hal : a ∈ l <;> simp [hal]
    · by_cases hal : a ∈ l <;> simp [hal, hab]

omit [LinearOrder K] in
theorem seq_push_keys [DecidableEq K] (s : List (K × V)) (e : K × V) :
    (seq_push s e).map Prod.fst =
      s.map Prod.fst ++ (if e.1 ∈ s.map Prod.fst then [] else [e.1]) := by
  unfold seq_push
  by_cases h : e.1 ∈ s.map Prod.fst
  · simp only [h, if_true, List.append_nil, List.map_map]
    apply List.map_congr_left
    intro x _
    by_cases hx : x.1 = e.1 <;> simp [hx]
  · simp [h]

omit [LinearOrder K] in
theorem seq_push_mem_self [DecidableEq K] (s : List (K × V)) (k : K) (v : V) :
    (k, v) ∈ seq_push s (k, v) := by
  unfold seq_push
  by_cases h : k ∈ s.map Prod.fst
  · obtain ⟨x, hx, e⟩ := List.mem_map.mp h
    simp only [h, if_true, List.mem_map]
    exact ⟨x, hx, by simp [e]⟩
  · simp [h]

omit [LinearOrder K] in
theorem seq_push_mem_of_ne [DecidableEq K] (s : List (K × V)) (k : K) (v : V) (e : K × V)
    (h : (k, v) ∈ s) (hne : e.1 ≠ k) : (k, v) ∈ seq_push s e := by
  unfold seq_push
  by_cases he : e.1 ∈ s.map Prod.fst
  · simp only [he, if_true, List.mem_map]
    exact ⟨(k, v), h, by simp [Ne.symm hne]⟩
  · simp [he, h]

omit [LinearOrder K] in
theorem foldl_seq_push_keys [DecidableEq K] (l : List (K × V)) :
    (l.foldl seq_push []).map Prod.fst = first_occurrences (l.map Prod.fst) := by
  induction l using List.reverseRecOn with
  | nil => simp [first_occurrences]
  | append_singleton l e ih =>
    rw [List.foldl_append, List.foldl_cons, List.foldl_nil, seq_push_keys, ih,
      List.map_append, List.map_cons, List.map_nil, first_occurrences_concat]
    simp only [first_occurrences_mem]

omit [LinearOrder K] in
theorem foldl_seq_push_mem [DecidableEq K] (l : List (K × V)) (k : K) (v : V) :
    ∀ s : List (K × V), (k, v) ∈ s → k ∉ l.map Prod.fst → (k, v) ∈ l.foldl seq_push s := by
  induction l with
  | nil => intro s h _; exact h
  | cons e l ih =>
    intro s h hk
    simp only [List.map_cons, List.mem_cons, not_or] at hk
    exact ih _ (seq_push_mem_of_ne s k v e h (Ne.symm hk.1)) hk.2

omit [LinearOrder K] in
/-- In the sequence that pushing the pairs of `l` builds, the value of a key is the
value of the last pair of `l` with that key. -/
theorem foldl_seq_push_last [DecidableEq K] (l1 l2 : List (K × V)) (k : K) (v : V)
    (hk : k ∉ l2.map Prod.fst) : (k, v) ∈ (l1 ++ (k, v) :: l2).foldl seq_push [] := by
  rw [List.foldl_append, List.foldl_cons]
  exact foldl_seq_push_mem l2 k v _ (seq_push_mem_self _ k v) hk

/-- The method `push` on sequences. -/
theorem push_seq (c : core_table K V) (hc : invariant c) (k : K) (v : V) :
    ∃ r, c.push k v = some r ∧ invariant r ∧ r.seq = seq_push c.seq (k, v) := by
  by_cases hk : k ∈ c.keys
  · obtain ⟨n, hn, e⟩ := List.mem_map.mp hk
    obtain ⟨dx, dy, hd⟩ := List.append_of_mem hn
    subst e
    obtain ⟨hi, hr⟩ := insert_hit c hc dx dy n hd c.end_ v
    refine ⟨_, hi, hr, ?_⟩
    have hku := hc.key_unique
    simp only [core_table.keys, hd, List.map_append, List.map_cons] at hku
    have h1 : ∀ m ∈ dx, m.first ≠ n.first := fun m hm e =>
      (List.nodup_append.mp hku).2.2 (List.mem_map.mpr ⟨m, hm, e⟩) (List.mem_cons_self _ _)
    have h2 : ∀ m ∈ dy, m.first ≠ n.first := fun m hm e =>
      (List.nodup_cons.mp (List.nodup_append.mp hku).2.1).1 (List.mem_map.mpr ⟨m, hm, e⟩)
    have hmem : n.first ∈ (c.seq).map Prod.fst := by rw [← keys_eq_seq]; exact hk
    unfold seq_push
    simp only [hmem, if_true]
    simp only [core_table.seq, entries, hd, List.map_append, List.map_cons, List.map_map]
    congr 1
    · apply List.map_congr_left
      intro m hm
      simp [h1 m hm]
    · congr 1
      · simp
        intro m hm
        simp [h2 m hm]
  · obtain ⟨g, hi, _, hr⟩ := insert_miss c hc k hk c.data [] (by simp) v
    refine ⟨_, hi, hr, ?_⟩
    have hmem : ¬ k ∈ (c.seq).map Prod.fst := by rw [← keys_eq_seq]; exact hk
    unfold seq_push
    simp only [hmem, if_false]
    simp [core_table.seq, entries]

/-- Pushing the pairs of a list one after the other, on sequences. -/
theorem push_list_seq :
    ∀ (l : List (K × V)) (c : core_table K V), invariant c →
      ∃ r, l.foldlM (fun acc e => core_table.push acc e.1 e.2) c = some r ∧ invariant r ∧
        r.seq = l.foldl seq_push c.seq := by
  intro l
  induction l with
  | nil => intro c hc; exact ⟨c, rfl, hc, rfl⟩
  | cons e es ih =>
    intro c hc
    obtain ⟨c1, h1, hc1, hs1⟩ := push_seq c hc e.1 e.2
    obtain ⟨r, h2, hr, hs2⟩ := ih c1 hc1
    refine ⟨r, ?_, hr, ?_⟩
    · simp only [List.foldlM_cons, h1, Option.bind_eq_bind, Option.some_bind]
      exact h2
    · rw [hs2, hs1]
      rfl

/-- Construction from any list of pairs. -/
theorem of_list_seq (l : List (K × V)) :
    ∃ r, core_table.of_list l = some r ∧ invariant r ∧ r.seq = l.foldl seq_push [] :=
  push_list_seq l core_table.empty invariant_empty

theorem invariant.value_at_seq [Inhabited V] {c : core_table K V} (hc : invariant c)
    (k : K) (v : V) (h : (k, v) ∈ c.seq) : c.value_at k = some v := by
  obtain ⟨n, hn, e⟩ := List.mem_map.mp h
  simp only [Prod.mk.injEq] at e
  rw [← e.1, ← e.2]
  exact hc.value_at_mem n hn

omit [LinearOrder K] in
/-- The method `invert` pushes the swapped entries in sequence order onto an empty
container. -/
theorem invert_eq_of_list [LinearOrder V] (c : core_table K V) :
    c.invert = core_table.of_list (c.seq.map Prod.swap) := by
  unfold core_table.invert core_table.of_list core_table.seq entries
  rw [List.map_map, List.foldlM_map]
  rfl

/-! ## Sorting -/

omit [LinearOrder K] in
/-- After `data.sort(p)` with `p` the order of a linearly ordered attribute `f` of the
entries, the attribute is non-decreasing along the sequence. -/
theorem list_sort_sorted {α : Type} [LinearOrder α] (p : K × V → K × V → Bool)
    (f : node K V → α)
    (hp : ∀ x y : node K V, p (x.first, x.second) (y.first, y.second) = decide (f x < f y))
    (d : chain K V) : ((list_sort p d).map f).Pairwise (fun a b => a ≤ b) := by
  have hr : ∀ x y : node K V,
      (p (y.first, y.second) (x.first, x.second) = false) ↔ f x ≤ f y := by
    intro x y
    rw [hp]
    simp
  haveI : IsTotal (node K V)
      (fun x y => p (y.first, y.second) (x.first, x.second) = false) :=
    ⟨fun x y => by simp only [hr]; exact le_total _ _⟩
  haveI : IsTrans (node K V)
      (fun x y => p (y.first, y.second) (x.first, x.second) = false) :=
    ⟨fun x y z h1 h2 => by simp only [hr] at *; exact le_trans h1 h2⟩
  have hs := List.sorted_insertionSort
    (fun x y : node K V => p (y.first, y.second) (x.first, x.second) = false) d
  rw [List.pairwise_map]
  exact List.Pairwise.imp (fun h => (hr _ _).mp h) hs

omit [LinearOrder K] in
theorem list_sort_perm (p : K × V → K × V → Bool) (d : chain K V) :
    (list_sort p d).Perm d :=
  List.perm_insertionSort _ d

omit [LinearOrder K] in
/-- Linking a node into its place does not change the order among the nodes that
carry a given value of the sorted attribute. -/
theorem orderedInsert_filter {α : Type} [LinearOrder α] (p : K × V → K × V → Bool)
    (f : node K V → α)
    (hp : ∀ x y : node K V, p (x.first, x.second) (y.first, y.second) = decide (f x < f y))
    (w : α) (a : node K V) (l : chain K V) :
    (List.orderedInsert (fun x y => p (y.first, y.second) (x.first, x.second) = false) a
        l).filter (fun n => decide (f n = w)) =
      (a :: l).filter (fun n => decide (f n = w)) := by
  induction l with
  | nil => simp
  | cons b l ih =>
    by_cases hab : p (b.first, b.second) (a.first, a.second) = false
    · rw [List.orderedInsert_of_le
        (fun x y : node K V => p (y.first, y.second) (x.first, x.second) = false) l hab]
    · have hlt : f b < f a := by
        rw [hp] at hab
        simpa using hab
      have hstep : List.orderedInsert
          (fun x y : node K V => p (y.first, y.second) (x.first, x.second) = false) a (b :: l) =
          b :: List.orderedInsert
            (fun x y : node K V => p (y.first, y.second) (x.first, x.second) = false) a l :=
        if_neg hab
      rw [hstep, List.filter_cons, ih]
      by_cases ha : f a = w
      · have hb : ¬ f b = w := fun e => by rw [ha, e] at hlt; exact lt_irrefl _ hlt
        simp [List.filter_cons, ha, hb]
      · simp [List.filter_cons, ha]

omit [LinearOrder K] in
/-- The sort is stable: the nodes that carry a given value of the sorted attribute
come out in the order they had. -/
theorem list_sort_filter {α : Type} [LinearOrder α] (p : K × V → K × V → Bool)
    (f : node K V → α)
    (hp : ∀ x y : node K V, p (x.first, x.second) (y.first, y.second) = decide (f x < f y))
    (w : α) (d : chain K V) :
    (list_sort p d).filter (fun n => decide (f n = w)) =
      d.filter (fun n => decide (f n = w)) := by
  unfold list_sort
  induction d with
  | nil => simp
  | cons a l ih =>
    rw [List.insertionSort, orderedInsert_filter p f hp, List.filter_cons, ih,
      List.filter_cons]

/-! ## Comparison of containers -/

omit [LinearOrder K] in
theorem pair_eq_iff [DecidableEq K] [DecidableEq V] (x y : K × V) :
    pair_eq x y = true ↔ x = y := by
  cases x; cases y
  simp [pair_eq]

omit [LinearOrder K] in
theorem list_equal_iff [DecidableEq K] [DecidableEq V] (a b : chain K V) :
    list_equal a b = true ↔ entries a = entries b := by
  induction a generalizing b with
  | nil => cases b <;> simp [list_equal, entries]
  | cons x xs ih =>
    cases b with
    | nil => simp [list_equal, entries]
    | cons y ys =>
      have := ih ys
      simp only [entries] at this
      simp [list_equal, entries, pair_eq, this, and_assoc]

omit [LinearOrder K] in
theorem operator_eq_iff [DecidableEq K] [DecidableEq V] (a b : core_table K V) :
    a.operator_eq b = true ↔ a.seq = b.seq :=
  list_equal_iff a.data b.data

theorem pair_lt_iff [LinearOrder V] (x y : K × V) :
    pair_lt x y = true ↔ (x.1 < y.1 ∨ (x.1 = y.1 ∧ x.2 < y.2)) := by
  simp only [pair_lt, Bool.or_eq_true, Bool.and_eq_true, Bool.not_eq_true',
    decide_eq_true_eq, decide_eq_false_iff_not, not_lt]
  constructor
  · rintro (h | ⟨h1, h2⟩)
    · exact Or.inl h
    · rcases lt_or_eq_of_le h1 with h | h
      · exact Or.inl h
      · exact Or.inr ⟨h, h2⟩
  · rintro (h | ⟨h1, h2⟩)
    · exact Or.inl h
    · exact Or.inr ⟨le_of_eq h1, h2⟩

theorem pair_lt_irrefl [LinearOrder V] (x : K × V) : pair_lt x x = false := by
  rw [← Bool.not_eq_true, pair_lt_iff]
  rintro (h | ⟨_, h⟩) <;> exact lt_irrefl _ h

theorem pair_lt_asymm [LinearOrder V] (x y : K × V) (h : pair_lt x y = true) :
    pair_lt y x = false := by
  rw [← Bool.not_eq_true, pair_lt_iff]
  rw [pair_lt_iff] at h
  rintro (h2 | ⟨e2, h2⟩)
  · rcases h with h1 | ⟨e1, _⟩
    · exact lt_asymm h1 h2
    · rw [e1] at h2; exact lt_irrefl _ h2
  · rcases h with h1 | ⟨_, h1⟩
    · rw [e2] at h1; exact lt_irrefl _ h1
    · exact lt_asymm h1 h2

theorem pair_lt_neither [LinearOrder V] (x y : K × V) (h1 : pair_lt x y = false)
    (h2 : pair_lt y x = false) : x = y := by
  rw [← Bool.not_eq_true, pair_lt_iff] at h1 h2
  simp only [not_or, not_and, not_lt] at h1 h2
  have hk : x.1 = y.1 := le_antisymm h2.1 h1.1
  have hv : x.2 = y.2 := le_antisymm (h2.2 hk.symm) (h1.2 hk)
  exact Prod.ext hk hv

theorem seq_less_cons_same [LinearOrder V] (x : K × V) (xs ys : List (K × V)) :
    seq_less (x :: xs) (x :: ys) ↔ seq_less xs ys := by
  constructor
  · rintro (⟨t, ht, e⟩ | ⟨p, x1, y1, s, t, ea, eb, h⟩)
    · simp only [List.cons_append, List.cons.injEq, true_and] at e
      exact Or.inl ⟨t, ht, e⟩
    · cases p with
      | nil =>
        simp only [List.nil_append, List.cons.injEq] at ea eb
        have hxy : x1 = y1 := ea.1.symm.trans eb.1
        subst hxy
        rcases h with h | ⟨_, h⟩ <;> exact absurd h (lt_irrefl _)
      | cons q p =>
        simp only [List.cons_append, List.cons.injEq] at ea eb
        exact Or.inr ⟨p, x1, y1, s, t, ea.2, eb.2, h⟩
  · rintro (⟨t, ht, e⟩ | ⟨p, x1, y1, s, t, ea, eb, h⟩)
    · exact Or.inl ⟨t, ht, by simp [e]⟩
    · exact Or.inr ⟨x :: p, x1, y1, s, t, by simp [ea], by simp [eb], h⟩

theorem seq_less_cons_gt [LinearOrder V] (x y : K × V) (xs ys : List (K × V))
    (hyx : pair_lt y x = true) : ¬ seq_less (x :: xs) (y :: ys) := by
  rintro (⟨t, _, e⟩ | ⟨p, x1, y1, s, t, ea, eb, h⟩)
  · simp only [List.cons_append, List.cons.injEq] at e
    rw [e.1, pair_lt_irrefl] at hyx
    exact Bool.false_ne_true hyx
  · cases p with
    | nil =>
      simp only [List.nil_append, List.cons.injEq] at ea eb
      have hxy : pair_lt x y = true := by
        rw [pair_lt_iff, ea.1, eb.1]; exact h
      rw [pair_lt_asymm x y hxy] at hyx
      exact Bool.false_ne_true hyx
    | cons q p =>
      simp only [List.cons_append, List.cons.injEq] at ea eb
      rw [ea.1, eb.1, pair_lt_irrefl] at hyx
      exact Bool.false_ne_true hyx

/-- The comparison `data < ct.data` is the order on sequences of the specification. -/
theorem lexicographical_compare_iff [LinearOrder V] (a b : chain K V) :
    lexicographical_compare a b = true ↔ seq_less (entries a) (entries b) := by
  induction a generalizing b with
  | nil =>
    cases b with
    | nil =>
      simp only [lexicographical_compare, entries, List.map_nil, Bool.false_eq_true, false_iff]
      rintro (⟨t, ht, e⟩ | ⟨p, x1, y1, s, t, ea, _, _⟩)
      · exact ht (by simpa using e.symm)
      · simp at ea
    | cons y ys =>
      simp only [lexicographical_compare, true_iff]
      exact Or.inl ⟨entries (y :: ys), by simp [entries], by simp [entries]⟩
  | cons x xs ih =>
    cases b with
    | nil =>
      simp only [lexicographical_compare, entries, List.map_nil, List.map_cons,
        Bool.false_eq_true, false_iff]
      rintro (⟨t, _, e⟩ | ⟨p, x1, y1, s, t, _, eb, _⟩)
      · simp at e
      · simp at eb
    | cons y ys =>
      simp only [lexicographical_compare]
      by_cases h1 : pair_lt (x.first, x.second) (y.first, y.second) = true
      · simp only [h1, if_true, true_iff]
        exact Or.inr ⟨[], (x.first, x.second), (y.first, y.second), entries xs, entries ys,
          by simp [entries], by simp [entries], (pair_lt_iff _ _).mp h1⟩
      · by_cases h2 : pair_lt (y.first, y.second) (x.first, x.second) = true
        · simp only [h1, h2, if_true, if_false, Bool.false_eq_true, false_iff]
          exact seq_less_cons_gt _ _ (entries xs) (entries ys) h2
        · have hxy := pair_lt_neither _ _ (Bool.not_eq_true _ ▸ h1) (Bool.not_eq_true _ ▸ h2)
          rw [if_neg h1, if_neg h2, ih ys]
          have e1 : entries (x :: xs) = (x.first, x.second) :: entries xs := rfl
          have e2 : entries (y :: ys) = (x.first, x.second) :: entries ys := by
            rw [hxy]; rfl
          rw [e1, e2, seq_less_cons_same]

/-- The comparisons `a < b`, `b < a` and `a == b` of lists exclude each other and one
of them holds. -/
theorem lexicographical_compare_total [LinearOrder V] (a b : chain K V) :
    lexicographical_compare b a = false ↔
      (lexicographical_compare a b = true ∨ list_equal a b = true) := by
  induction a generalizing b with
  | nil => cases b <;> simp [lexicographical_compare, list_equal]
  | cons x xs ih =>
    cases b with
    | nil => simp [lexicographical_compare, list_equal]
    | cons y ys =>
      simp only [lexicographical_compare, list_equal]
      by_cases h1 : pair_lt (x.first, x.second) (y.first, y.second) = true
      · simp [h1, pair_lt_asymm _ _ h1]
      · by_cases h2 : pair_lt (y.first, y.second) (x.first, x.second) = true
        · have hne : pair_eq (x.first, x.second) (y.first, y.second) = false := by
            rw [← Bool.not_eq_true, pair_eq_iff]
            intro e
            rw [e, pair_lt_irrefl] at h2
            exact Bool.false_ne_true h2
          simp [h1, h2, hne]
        · have hxy := pair_lt_neither _ _ (Bool.not_eq_true _ ▸ h1) (Bool.not_eq_true _ ▸ h2)
          have heq : pair_eq (x.first, x.second) (y.first, y.second) = true :=
            (pair_eq_iff _ _).mpr hxy
          rw [if_neg h2, if_neg h1, if_neg h1, if_neg h2, heq, Bool.true_and]
          exact ih ys

/-! ## Slices and find -/

theorem head_seq (c : core_table K V) (hc : invariant c) (xs : List (K × V))
    (k : K) (v : V) (hs : c.seq = (k, v) :: xs) :
    c.head = some ⟨[⟨1, k, v⟩], [1]⟩ := by
  obtain ⟨n, dy, hd, e, _⟩ := List.map_eq_cons_iff.mp hs
  simp only [Prod.mk.injEq] at e
  unfold core_table.head
  rw [hc.is_empty_eq, hs]
  simp only [List.isEmpty_cons, Bool.false_eq_true, if_false, core_table.front, hd,
    List.head?_cons, e.1, e.2]
  exact of_list_singleton k v

theorem last_seq (c : core_table K V) (hc : invariant c) (xs : List (K × V))
    (k : K) (v : V) (hs : c.seq = xs ++ [(k, v)]) :
    c.last = some ⟨[⟨1, k, v⟩], [1]⟩ := by
  obtain ⟨dx, dy1, hd, _, hy1⟩ := entries_split c.data xs [(k, v)] hs
  obtain ⟨n, dy, e1, e, hy⟩ := List.map_eq_cons_iff.mp hy1
  have hdy : dy = [] := List.map_eq_nil_iff.mp hy
  subst e1 hdy
  simp only [Prod.mk.injEq] at e
  unfold core_table.last
  rw [hc.is_empty_eq, hs]
  have hb : c.back = some n := by simp [core_table.back, hd]
  have hne : (xs ++ [(k, v)]).isEmpty = false := by simp
  simp only [hne, Bool.false_eq_true, if_false, hb, e.1, e.2]
  exact of_list_singleton k v

omit [LinearOrder K] in
/-- A sequence of at least two entries has a first entry, a middle and a last entry. -/
theorem seq_first_mid_last {α : Type} (s : List α) (h : 2 ≤ s.length) :
    ∃ f mid l, s = [f] ++ mid ++ [l] := by
  cases s with
  | nil => simp at h
  | cons f rest =>
    have hne : rest ≠ [] := by
      intro e
      simp [e] at h
    exact ⟨f, rest.dropLast, rest.getLast hne, by
      simp [List.dropLast_append_getLast hne]⟩

/-- The call `head().append(last())` on a sequence with distinct first and last key. -/
theorem head_append_last (f l : K × V) (hne : l.1 ≠ f.1) :
    ∃ r, core_table.append (⟨[⟨1, f.1, f.2⟩], [1]⟩ : core_table K V)
        ⟨[⟨1, l.1, l.2⟩], [1]⟩ = some r ∧ invariant r ∧ r.seq = [f, l] := by
  obtain ⟨r, hr, hinv, hseq⟩ := push_seq (⟨[⟨1, f.1, f.2⟩], [1]⟩ : core_table K V)
    (invariant_singleton f.1 f.2) l.1 l.2
  refine ⟨r, ?_, hinv, ?_⟩
  · simp only [core_table.append, List.foldlM_cons, List.foldlM_nil, hr,
      Option.bind_eq_bind, Option.some_bind]
    rfl
  · rw [hseq]
    simp [seq_push, core_table.seq, entries, hne]

omit [LinearOrder K] in
theorem list_next_split (dx dy : chain K V) (n : node K V)
    (h : n.addr ∉ dx.map node.addr) :
    list_next (dx ++ n :: dy) n.addr = some (pos dy) := by
  induction dx with
  | nil => simp [list_next, pos]
  | cons x xs ih =>
    simp only [List.map_cons, List.mem_cons, not_or] at h
    have hx : ¬ x.addr = n.addr := fun e => h.1 e.symm
    simp [list_next, hx, ih h.2]

end invariant_lemmas

/-- The container reached by `push(2,10)`, `push(1,20)`,
`prepend(std::move(s))` with `s = [(3,30)]`, `push(2,40)`, `remove(1)`,
`sort_by_key()`. -/
theorem reachable_example :
    reachable (trivial_move : moved_from Nat Nat) false
      (⟨[⟨1, 2, 40⟩, ⟨3, 3, 30⟩], [1, 3]⟩ : core_table Nat Nat) :=
  reachable.receiver false ⟨[⟨3, 3, 30⟩, ⟨1, 2, 40⟩], [1, 3]⟩ op.sort_by_key _ none
    (reachable.receiver false ⟨[⟨3, 3, 30⟩, ⟨1, 2, 40⟩, ⟨2, 1, 20⟩], [2, 1, 3]⟩
      (op.remove 1) _ none
      (reachable.receiver false ⟨[⟨3, 3, 30⟩, ⟨1, 2, 10⟩, ⟨2, 1, 20⟩], [2, 1, 3]⟩
        (op.push 2 40) _ none
        (reachable.receiver false ⟨[⟨1, 2, 10⟩, ⟨2, 1, 20⟩], [2, 1]⟩
          (op.prepend_move ⟨[⟨1, 3, 30⟩], [1]⟩) _ (some ⟨[⟨1, 3, 30⟩], [1]⟩)
          (reachable.receiver false ⟨[⟨1, 2, 10⟩], [1]⟩ (op.push 1 20) _ none
            (reachable.receiver false core_table.empty (op.push 2 10) _ none
              reachable.empty (by decide))
            (by decide))
          (by decide))
        (by decide))
      (by decide))
    (by decide)

/-- The source `[(5,1), (3,2)]` after `c.append(std::move(s))` on an empty `c`, for
keys that a move leaves as they were. -/
theorem reachable_source_example :
    reachable (trivial_move : moved_from Nat Nat) true
      (⟨[⟨1, 5, 1⟩, ⟨2, 3, 2⟩], [2, 1]⟩ : core_table Nat Nat) :=
  reachable.source false false core_table.empty ⟨[⟨1, 5, 1⟩, ⟨2, 3, 2⟩], [2, 1]⟩
    (op.append_move ⟨[⟨1, 5, 1⟩, ⟨2, 3, 2⟩], [2, 1]⟩) ⟨[⟨1, 5, 1⟩, ⟨2, 3, 2⟩], [2, 1]⟩ _
    reachable.empty (reachable.of_list [(5, 1), (3, 2)] _ (by decide)) rfl (by decide)

/-- The source `[("a",1), ("b",2)]` after `c.append(std::move(s))` on an empty `c`:
both keys were moved into the nodes of `c`, and `gate` of the source still holds
its two iterators. -/
theorem moved_source_example :
    reachable (string_move : moved_from String Nat) true
      (⟨[⟨1, "", 1⟩, ⟨2, "", 2⟩], [1, 2]⟩ : core_table String Nat) := by
  have hs : core_table.of_list [("a", 1), ("b", 2)] =
      some (⟨[⟨1, "a", 1⟩, ⟨2, "b", 2⟩], [1, 2]⟩ : core_table String Nat) := by
    simp [core_table.of_list, core_table.push, core_table.insert, set_find, compare_ik,
      compare_ki, deref, core_table.end_, list_emplace, new_addr, set_emplace, compare_ii,
      core_table.empty]
    decide
  have ha : op.apply (string_move : moved_from String Nat) core_table.empty
      (op.append_move ⟨[⟨1, "a", 1⟩, ⟨2, "b", 2⟩], [1, 2]⟩) =
      some (⟨[⟨1, "a", 1⟩, ⟨2, "b", 2⟩], [1, 2]⟩,
        some ⟨[⟨1, "", 1⟩, ⟨2, "", 2⟩], [1, 2]⟩) := by
    simp [op.apply, core_table.append_move, core_table.consume, core_table.insert_move,
      set_find, compare_ik, compare_ki, deref, core_table.end_, list_emplace, new_addr,
      set_emplace, compare_ii, core_table.empty, string_move]
    decide
  exact reachable.source false false core_table.empty ⟨[⟨1, "a", 1⟩, ⟨2, "b", 2⟩], [1, 2]⟩
    (op.append_move ⟨[⟨1, "a", 1⟩, ⟨2, "b", 2⟩], [1, 2]⟩) _ _
    reachable.empty (reachable.of_list _ _ hs) rfl ha

/-- The example of section 8 of the specification: starting empty, `push("a",1)`,
`push("b",2)`, `unshift("c",3)`. -/
theorem example_abc_built :
    ∃ c1 c2 : core_table String Nat,
      core_table.push core_table.empty "a" 1 = some c1 ∧ c1.push "b" 2 = some c2 ∧
        c2.unshift "c" 3 = some ⟨[⟨3, "c", 3⟩, ⟨1, "a", 1⟩, ⟨2, "b", 2⟩], [1, 2, 3]⟩ := by
  refine ⟨⟨[⟨1, "a", 1⟩], [1]⟩, ⟨[⟨1, "a", 1⟩, ⟨2, "b", 2⟩], [1, 2]⟩, by decide, ?_, ?_⟩
  · simp [core_table.push, core_table.insert, set_find, compare_ik, compare_ki, deref,
      core_table.end_, list_emplace, new_addr, set_emplace, compare_ii]
    decide
  · simp [core_table.unshift, core_table.insert, set_find, compare_ik, compare_ki, deref,
      core_table.begin, list_emplace, link_before, new_addr, set_emplace, compare_ii]
    decide

theorem example_abc_inv :
    invariant (⟨[⟨3, "c", 3⟩, ⟨1, "a", 1⟩, ⟨2, "b", 2⟩], [1, 2, 3]⟩ : core_table String Nat) := by
  refine ⟨by decide, by decide, by decide, ?_⟩
  simp [key_lt, key_of, deref]
  decide

theorem example_ca_inv :
    invariant (⟨[⟨3, "c", 3⟩, ⟨1, "a", 1⟩], [1, 3]⟩ : core_table String Nat) := by
  refine ⟨by decide, by decide, by decide, ?_⟩
  simp [key_lt, key_of, deref]
  decide

/-! ## The claims -/

section claims

variable [LinearOrder K]

/-- C1, as the specification states it, fails.  The overloads of `append`, `prepend`
and `splice` that take the source by `&&` move the keys out of the nodes of the
source, and the source stays a live container.  After `c.append(std::move(s))` with
`c` empty and `s = [("a",1), ("b",2)]`, the container `s` holds two entries whose
keys are both the empty string that the move left behind. -/
theorem C1_key_uniqueness_counterexample :
    reachable (string_move : moved_from String Nat) true
        (⟨[⟨1, "", 1⟩, ⟨2, "", 2⟩], [1, 2]⟩ : core_table String Nat) ∧
      ¬ (core_table.keys
        (⟨[⟨1, "", 1⟩, ⟨2, "", 2⟩], [1, 2]⟩ : core_table String Nat)).Nodup :=
  ⟨moved_source_example, by decide⟩

/-- C1, amended.  Key uniqueness is an invariant of every container reachable from
the empty container, or from an initializer-list construction, by any sequence of
insert, push, unshift, append, prepend, splice, remove, shift, pop, clear, sort,
sort_by_key, sort_by_value and reverse, that has never been the `&&` source of
`append`, `prepend` or `splice`; and of every such container, sources included, when
moving a key leaves the key as it was: `keys()` contains no key twice. -/
theorem C1_key_uniqueness [LinearOrder V] (mf : moved_from K V) (b : Bool)
    (c : core_table K V) (h : reachable mf b c) (hb : b = false ∨ ∀ k, mf.first k = k) :
    c.keys.Nodup :=
  (reachable_inv mf b c h hb).key_unique

/-- Witness of C1: the container reached by `push(2,10)`, `push(1,20)`,
`prepend(std::move(s))` with `s = [(3,30)]`, `push(2,40)`, `remove(1)`,
`sort_by_key()`. -/
theorem C1_key_uniqueness_witness :
    reachable (trivial_move : moved_from Nat Nat) false
        (⟨[⟨1, 2, 40⟩, ⟨3, 3, 30⟩], [1, 3]⟩ : core_table Nat Nat) ∧
      (core_table.keys (⟨[⟨1, 2, 40⟩, ⟨3, 3, 30⟩], [1, 3]⟩ : core_table Nat Nat)).Nodup :=
  ⟨reachable_example, C1_key_uniqueness _ _ _ reachable_example (Or.inl rfl)⟩

/-- C2, as the specification states it, fails, on the same container as C1: the
source `s = [("a",1), ("b",2)]` after `c.append(std::move(s))`.  Its two entries
both have the empty key, so looking the key of the second node up in `gate` yields
the iterator to the first node, and `value_at("")` is 1 although the sequence also
pairs the empty key with 2. -/
theorem C2_index_sequence_agreement_counterexample :
    reachable (string_move : moved_from String Nat) true
        (⟨[⟨1, "", 1⟩, ⟨2, "", 2⟩], [1, 2]⟩ : core_table String Nat) ∧
      ¬ (∀ n ∈ core_table.data
            (⟨[⟨1, "", 1⟩, ⟨2, "", 2⟩], [1, 2]⟩ : core_table String Nat),
          set_find [⟨1, "", 1⟩, ⟨2, "", 2⟩] [1, 2] n.first = some (some n.addr)) ∧
      ¬ (∀ k v, (k, v) ∈ core_table.seq
            (⟨[⟨1, "", 1⟩, ⟨2, "", 2⟩], [1, 2]⟩ : core_table String Nat) →
          core_table.value_at
            (⟨[⟨1, "", 1⟩, ⟨2, "", 2⟩], [1, 2]⟩ : core_table String Nat) k = some v) := by
  have hf : set_find ([⟨1, "", 1⟩, ⟨2, "", 2⟩] : chain String Nat) [1, 2] "" =
      some (some 1) := by
    simp [set_find, compare_ik, compare_ki, deref]
  have hv : core_table.value_at
      (⟨[⟨1, "", 1⟩, ⟨2, "", 2⟩], [1, 2]⟩ : core_table String Nat) "" = some 1 := by
    simp [core_table.value_at, set_find, compare_ik, compare_ki, deref]
  refine ⟨moved_source_example, ?_, ?_⟩
  · intro h
    have h2 := h ⟨2, "", 2⟩ (by simp)
    rw [hf] at h2
    simp at h2
  · intro h
    have h2 := h "" 2 (by simp [core_table.seq, entries])
    rw [hv] at h2
    simp at h2

/-- C2, amended.  Index/sequence agreement is an invariant of every container
reachable from the empty container by any sequence of public mutating operations
that has never been the `&&` source of `append`, `prepend` or `splice`; and of every
such container, sources included, when moving a key leaves the key as it was:
`gate` holds exactly one iterator per node of `data`, looking a node's key up in
`gate` yields the iterator to that very node, and the iterator resolves to it;
hence `length()` is the number of sequence entries, `contains_key(k)` is true
exactly when `k` occurs in `keys()`, and `value_at(k)` is the value paired with `k`
in the sequence. -/
theorem C2_index_sequence_agreement [LinearOrder V] [Inhabited V] (mf : moved_from K V)
    (b : Bool) (c : core_table K V) (h : reachable mf b c)
    (hb : b = false ∨ ∀ k, mf.first k = k) :
    (c.gate.Perm (c.data.map node.addr) ∧ c.gate.Nodup) ∧
      (∀ n ∈ c.data, set_find c.data c.gate n.first = some (some n.addr) ∧
        deref c.data n.addr = some n) ∧
      c.length = c.seq.length ∧
      (∀ k, c.contains_key k = some (decide (k ∈ c.keys))) ∧
      (∀ k v, (k, v) ∈ c.seq → c.value_at k = some v) := by
  have hc := reachable_inv mf b c h hb
  refine ⟨⟨hc.gate_perm, hc.gate_perm.nodup_iff.mpr hc.addr_nodup⟩, ?_, ?_, ?_, ?_⟩
  · intro n hn
    exact ⟨hc.find_hit n hn, deref_of_mem c.data hc.addr_nodup n hn⟩
  · rw [hc.length_eq, core_table.seq, entries_length]
  · exact hc.contains_key_eq
  · intro k v hkv
    obtain ⟨n, hn, e⟩ := List.mem_map.mp hkv
    simp only [Prod.mk.injEq] at e
    rw [← e.1, ← e.2]
    exact hc.value_at_mem n hn

/-- Witness of C2: the source `[(5,1), (3,2)]` after `c.append(std::move(s))`, for
keys that a move leaves as they were. -/
theorem C2_index_sequence_agreement_witness :
    reachable (trivial_move : moved_from Nat Nat) true
        (⟨[⟨1, 5, 1⟩, ⟨2, 3, 2⟩], [2, 1]⟩ : core_table Nat Nat) ∧
      core_table.length (⟨[⟨1, 5, 1⟩, ⟨2, 3, 2⟩], [2, 1]⟩ : core_table Nat Nat) = 2 ∧
      core_table.contains_key (⟨[⟨1, 5, 1⟩, ⟨2, 3, 2⟩], [2, 1]⟩ : core_table Nat Nat) 3 =
        some true ∧
      core_table.value_at (⟨[⟨1, 5, 1⟩, ⟨2, 3, 2⟩], [2, 1]⟩ : core_table Nat Nat) 5 =
        some 1 :=
  ⟨reachable_source_example,
    (C2_index_sequence_agreement _ _ _ reachable_source_example (Or.inr fun _ => rfl)).2.2.1,
    (C2_index_sequence_agreement _ _ _ reachable_source_example
      (Or.inr fun _ => rfl)).2.2.2.1 3,
    (C2_index_sequence_agreement _ _ _ reachable_source_example
      (Or.inr fun _ => rfl)).2.2.2.2 5 1 (by decide)⟩

/-- C3. Update-on-duplicate: for every container `c`, every position `p`, every key
`k` already present in `c` and every value `v`, `insert(p, k, v)`, and therefore
`push(k, v)` and `unshift(k, v)`, leaves `keys()` and `length()` unchanged, makes
`value_at(k)` equal to `v`, and leaves the value of every other key unchanged; the
position argument has no effect. -/
theorem C3_update_on_duplicate [Inhabited V] (c : core_table K V) (hc : invariant c)
    (k : K) (hk : k ∈ c.keys) (v : V) :
    ∃ r, (∀ p, c.insert p k v = some r) ∧ c.push k v = some r ∧ c.unshift k v = some r ∧
      r.keys = c.keys ∧ r.length = c.length ∧ r.value_at k = some v ∧
      ∀ j, j ≠ k → r.value_at j = c.value_at j := by
  obtain ⟨n, hn, e⟩ := List.mem_map.mp hk
  obtain ⟨dx, dy, hd⟩ := List.append_of_mem hn
  subst e
  have hi := fun p => insert_hit c hc dx dy n hd p v
  have hr := (hi none).2
  refine ⟨_, fun p => (hi p).1, (hi _).1, (hi _).1, ?_, rfl, ?_, ?_⟩
  · simp [core_table.keys, hd]
  · exact hr.value_at_mem { n with second := v } (by simp)
  · intro j hj
    by_cases hjk : j ∈ c.keys
    · obtain ⟨m, hm, e⟩ := List.mem_map.mp hjk
      subst e
      have hm2 : m ∈ dx ++ { n with second := v } :: dy := by
        rw [hd] at hm
        simp only [List.mem_append, List.mem_cons] at hm ⊢
        rcases hm with h1 | h1 | h1
        · exact Or.inl h1
        · exact absurd (by rw [h1]) hj
        · exact Or.inr (Or.inr h1)
      rw [hr.value_at_mem m hm2, hc.value_at_mem m hm]
    · have hjr : j ∉ core_table.keys
          (⟨dx ++ { n with second := v } :: dy, c.gate⟩ : core_table K V) := by
        simpa [core_table.keys, hd] using hjk
      rw [hr.value_at_miss j hjr, hc.value_at_miss j hjk]

/-- Witness of C3: `insert(p, 3, 9)` on the sequence `[(5,1), (3,2)]`. -/
theorem C3_update_on_duplicate_witness :
    invariant (⟨[⟨1, 5, 1⟩, ⟨2, 3, 2⟩], [2, 1]⟩ : core_table Nat Nat) ∧
      ∃ r, (∀ p, core_table.insert (⟨[⟨1, 5, 1⟩, ⟨2, 3, 2⟩], [2, 1]⟩ : core_table Nat Nat)
            p 3 9 = some r) ∧
        r.seq = [(5, 1), (3, 9)] :=
  have h := C3_update_on_duplicate (⟨[⟨1, 5, 1⟩, ⟨2, 3, 2⟩], [2, 1]⟩ : core_table Nat Nat)
    (by decide) 3 (by decide) 9
  ⟨by decide, h.choose, h.choose_spec.1, by
    have h1 := h.choose_spec.1 none
    have h2 : core_table.insert (⟨[⟨1, 5, 1⟩, ⟨2, 3, 2⟩], [2, 1]⟩ : core_table Nat Nat)
        none 3 9 = some ⟨[⟨1, 5, 1⟩, ⟨2, 3, 9⟩], [2, 1]⟩ := by decide
    rw [h2] at h1
    rw [← Option.some.inj h1]
    decide⟩

/-- C4. Insert of a new key: for every container `c` whose sequence is `xs ++ ys`,
with `p` the position of the first entry of `ys` (the end marker when `ys` is
empty), and every key `k` not present in `c`, `insert(p, k, v)` yields the sequence
`xs ++ [(k, v)] ++ ys`, so `length()` grows by exactly 1, `contains_key(k)`
becomes true, and all former entries keep their values and relative order. -/
theorem C4_insert_new_key (c : core_table K V) (hc : invariant c) (xs ys : List (K × V))
    (hs : c.seq = xs ++ ys) (k : K) (hk : k ∉ c.keys) (v : V) :
    ∃ r, c.insert (c.iter_at xs.length) k v = some r ∧ r.seq = xs ++ [(k, v)] ++ ys ∧
      r.length = c.length + 1 ∧ r.contains_key k = some true := by
  obtain ⟨dx, dy, hd, hx, hy⟩ := entries_split c.data xs ys hs
  obtain ⟨g, hi, hperm, hr⟩ := insert_miss c hc k hk dx dy hd v
  have hp : c.iter_at xs.length = pos dy := by
    rw [← hx, entries_length]
    exact iter_at_split c dx dy hd
  refine ⟨_, hp ▸ hi, ?_, ?_, ?_⟩
  · simp [core_table.seq, entries, ← hx, ← hy]
  · have := hperm.length_eq
    simpa [core_table.length] using this
  · rw [hr.contains_key_eq]
    simp [core_table.keys]

/-- Witness of C4: `insert` of the new key 7 in front of the entry `(3,2)` of the
sequence `[(5,1), (3,2)]`. -/
theorem C4_insert_new_key_witness :
    invariant (⟨[⟨1, 5, 1⟩, ⟨2, 3, 2⟩], [2, 1]⟩ : core_table Nat Nat) ∧
      ∃ r, core_table.insert (⟨[⟨1, 5, 1⟩, ⟨2, 3, 2⟩], [2, 1]⟩ : core_table Nat Nat)
          (some 2) 7 0 = some r ∧
        r.seq = [(5, 1)] ++ [(7, 0)] ++ [(3, 2)] ∧ r.length = 2 + 1 ∧
        r.contains_key 7 = some true :=
  ⟨by decide,
    C4_insert_new_key (⟨[⟨1, 5, 1⟩, ⟨2, 3, 2⟩], [2, 1]⟩ : core_table Nat Nat) (by decide)
      [(5, 1)] [(3, 2)] (by decide) 7 (by decide) 0⟩

/-- C5. Remove of a present key: for every container `c` and key `k` present in `c`
with value `v`, `remove(k)` returns a container whose sequence is exactly
`[(k, v)]`, and afterwards `contains_key(k)` is false, `length()` has decreased by
1, and the sequence of `c` is the former sequence with that one entry deleted. -/
theorem C5_remove_present (c : core_table K V) (hc : invariant c) (xs ys : List (K × V))
    (k : K) (v : V) (hs : c.seq = xs ++ (k, v) :: ys) :
    ∃ o r, c.remove k = some (o, r) ∧ o.seq = [(k, v)] ∧ r.contains_key k = some false ∧
      r.length + 1 = c.length ∧ r.seq = xs ++ ys := by
  obtain ⟨dx, dy1, hd, hx, hy1⟩ := entries_split c.data xs ((k, v) :: ys) hs
  obtain ⟨n, dy, e1, e2, hy⟩ := List.map_eq_cons_iff.mp hy1
  subst e1
  simp only [Prod.mk.injEq] at e2
  obtain ⟨ek, ev⟩ := e2
  subst ek ev
  obtain ⟨hrm, hr⟩ := remove_hit c hc dx dy n hd
  refine ⟨_, _, hrm, rfl, ?_, ?_, ?_⟩
  · rw [hr.contains_key_eq]
    have hku := hc.key_unique
    simp only [core_table.keys, hd, List.map_append, List.map_cons] at hku
    have h1 := (List.nodup_append.mp hku).2.2
    have h2 := (List.nodup_cons.mp (List.nodup_append.mp hku).2.1).1
    have : n.first ∉ List.map node.first (dx ++ dy) := by
      simp only [List.map_append, List.mem_append, not_or]
      exact ⟨fun h => h1 h (List.mem_cons_self _ _), h2⟩
    simpa [core_table.keys] using this
  · rw [hr.length_eq, hc.length_eq, hd]
    simp
    omega
  · simp [core_table.seq, entries, ← hx, ← hy]

/-- Witness of C5: `remove(5)` on the sequence `[(9,3), (5,1), (3,7)]`. -/
theorem C5_remove_present_witness :
    invariant (⟨[⟨3, 9, 3⟩, ⟨1, 5, 1⟩, ⟨2, 3, 7⟩], [2, 1, 3]⟩ : core_table Nat Nat) ∧
      ∃ o r, core_table.remove
          (⟨[⟨3, 9, 3⟩, ⟨1, 5, 1⟩, ⟨2, 3, 7⟩], [2, 1, 3]⟩ : core_table Nat Nat) 5 =
            some (o, r) ∧
        o.seq = [(5, 1)] ∧ r.contains_key 5 = some false ∧ r.length + 1 = 3 ∧
        r.seq = [(9, 3)] ++ [(3, 7)] :=
  ⟨by decide,
    C5_remove_present (⟨[⟨3, 9, 3⟩, ⟨1, 5, 1⟩, ⟨2, 3, 7⟩], [2, 1, 3]⟩ : core_table Nat Nat)
      (by decide) [(9, 3)] [(3, 7)] 5 1 (by decide)⟩

/-- C6. Remove of a missing key is a no-op, not an error: for every container `c`
and key `k` not present in `c`, `remove(k)` returns an empty container (length 0)
and leaves `c` exactly as it was. -/
theorem C6_remove_missing (c : core_table K V) (hc : invariant c) (k : K)
    (hk : k ∉ c.keys) :
    ∃ o r, c.remove k = some (o, r) ∧ o.length = 0 ∧ o.seq = [] ∧ r = c :=
  ⟨_, _, remove_miss c hc k hk, rfl, rfl, rfl⟩

/-- Witness of C6: `remove(4)` on the sequence `[(9,3), (5,1), (3,7)]`. -/
theorem C6_remove_missing_witness :
    invariant (⟨[⟨3, 9, 3⟩, ⟨1, 5, 1⟩, ⟨2, 3, 7⟩], [2, 1, 3]⟩ : core_table Nat Nat) ∧
      ∃ o r, core_table.remove
          (⟨[⟨3, 9, 3⟩, ⟨1, 5, 1⟩, ⟨2, 3, 7⟩], [2, 1, 3]⟩ : core_table Nat Nat) 4 =
            some (o, r) ∧
        o.length = 0 ∧ o.seq = [] ∧
        r = (⟨[⟨3, 9, 3⟩, ⟨1, 5, 1⟩, ⟨2, 3, 7⟩], [2, 1, 3]⟩ : core_table Nat Nat) :=
  ⟨by decide,
    C6_remove_missing (⟨[⟨3, 9, 3⟩, ⟨1, 5, 1⟩, ⟨2, 3, 7⟩], [2, 1, 3]⟩ : core_table Nat Nat)
      (by decide) 4 (by decide)⟩

/-- C7. Dual error policy of key access: for every container `c` and key `k`,
`c[k]` fails with the out_of_range error if and only if `contains_key(k)` is
false, and when it succeeds it returns the same value as `value_at(k)`;
`value_at(k)` never fails and returns the default value of the value type when
`k` is absent. -/
theorem C7_dual_error_policy [Inhabited V] (c : core_table K V) (hc : invariant c) (k : K) :
    ((∃ w, c.subscript k = some (Except.error (exception.out_of_range w))) ↔
        c.contains_key k = some false) ∧
      (∀ w, c.subscript k = some (Except.ok w) → c.value_at k = some w) ∧
      (∃ w, c.value_at k = some w ∧
        (c.contains_key k = some true → c.subscript k = some (Except.ok w)) ∧
        (c.contains_key k = some false → w = default)) := by
  by_cases hk : k ∈ c.keys
  · obtain ⟨n, hn, e⟩ := List.mem_map.mp hk
    subst e
    have hsub : c.subscript n.first = some (Except.ok n.second) := by
      unfold core_table.subscript
      rw [hc.find_hit n hn]
      simp [deref_of_mem c.data hc.addr_nodup n hn]
    have hval := hc.value_at_mem n hn
    have hcon : c.contains_key n.first = some true := by
      rw [hc.contains_key_eq]; simp [hk]
    refine ⟨?_, ?_, n.second, hval, fun _ => hsub, ?_⟩
    · rw [hsub, hcon]; simp
    · intro w hw
      rw [hsub] at hw
      simp only [Option.some.injEq, Except.ok.injEq] at hw
      rw [← hw]; exact hval
    · intro h
      rw [hcon] at h
      simp at h
  · have hsub : c.subscript k = some (Except.error
        (exception.out_of_range "core_table, operator []: key not found!")) := by
      unfold core_table.subscript
      rw [hc.find_miss k hk]
    have hval := hc.value_at_miss k hk
    have hcon : c.contains_key k = some false := by
      rw [hc.contains_key_eq]; simp [hk]
    refine ⟨?_, ?_, default, hval, ?_, fun _ => rfl⟩
    · rw [hsub, hcon]; simp
    · intro w hw
      rw [hsub] at hw
      simp at hw
    · intro h
      rw [hcon] at h
      simp at h

/-- Witness of C7: the absent key 4 on the sequence `[(9,3), (5,1), (3,7)]`. -/
theorem C7_dual_error_policy_witness :
    invariant (⟨[⟨3, 9, 3⟩, ⟨1, 5, 1⟩, ⟨2, 3, 7⟩], [2, 1, 3]⟩ : core_table Nat Nat) ∧
      core_table.subscript
        (⟨[⟨3, 9, 3⟩, ⟨1, 5, 1⟩, ⟨2, 3, 7⟩], [2, 1, 3]⟩ : core_table Nat Nat) 4 =
        some (Except.error (exception.out_of_range "core_table, operator []: key not found!")) ∧
      ((∃ w, core_table.subscript
          (⟨[⟨3, 9, 3⟩, ⟨1, 5, 1⟩, ⟨2, 3, 7⟩], [2, 1, 3]⟩ : core_table Nat Nat) 4 =
            some (Except.error (exception.out_of_range w))) ↔
        core_table.contains_key
          (⟨[⟨3, 9, 3⟩, ⟨1, 5, 1⟩, ⟨2, 3, 7⟩], [2, 1, 3]⟩ : core_table Nat Nat) 4 =
            some false) :=
  ⟨by decide, rfl,
    (C7_dual_error_policy
      (⟨[⟨3, 9, 3⟩, ⟨1, 5, 1⟩, ⟨2, 3, 7⟩], [2, 1, 3]⟩ : core_table Nat Nat) (by decide) 4).1⟩

/-- C8. For every list of pairs `(k1,v1), ..., (kn,vn)` with pairwise distinct keys,
pushing them in that order onto an empty container gives `length() = n`,
`keys() = [k1, ..., kn]` and `values() = [v1, ..., vn]`: push order is iteration
order, never key order. -/
theorem C8_push_order (l : List (K × V)) (hl : (l.map Prod.fst).Nodup) :
    ∃ c, l.foldlM (fun acc e => core_table.push acc e.1 e.2)
        (core_table.empty : core_table K V) = some c ∧
      c.length = l.length ∧ c.keys = l.map Prod.fst ∧ c.values = l.map Prod.snd := by
  obtain ⟨r, hfold, _, hseq, hlen⟩ := splice_pairs [] l (core_table.empty : core_table K V)
    [] invariant_empty rfl hl (by intro e _; simp [core_table.keys, core_table.empty])
  refine ⟨r, hfold, ?_, ?_, ?_⟩
  · rw [hlen]; simp [core_table.length, core_table.empty]
  · rw [keys_eq_seq, hseq]; simp [entries]
  · rw [values_eq_seq, hseq]; simp [entries]

/-- Witness of C8: pushing `(5,1)`, `(3,2)`, `(9,0)`, whose keys are not ascending. -/
theorem C8_push_order_witness :
    ([(5, 1), (3, 2), (9, 0)].map Prod.fst).Nodup ∧
      ∃ c, [(5, 1), (3, 2), (9, 0)].foldlM (fun acc e => core_table.push acc e.1 e.2)
          (core_table.empty : core_table Nat Nat) = some c ∧
        c.length = 3 ∧ c.keys = [5, 3, 9] ∧ c.values = [1, 2, 0] :=
  ⟨by decide, C8_push_order [(5, 1), (3, 2), (9, 0)] (by decide)⟩

/-- C9, as the specification states it, fails: prepending the source `[(1,1), (2,2)]`
to the container `[(9,0)]` calls `unshift(1,1)` and then `unshift(2,2)`, which
leaves `[(2,2), (1,1), (9,0)]`, not the source in its own order followed by
`(9,0)`. -/
theorem C9_prepend_counterexample :
    invariant (⟨[⟨1, 9, 0⟩], [1]⟩ : core_table Nat Nat) ∧
      invariant (⟨[⟨1, 1, 1⟩, ⟨2, 2, 2⟩], [1, 2]⟩ : core_table Nat Nat) ∧
      (∀ k ∈ core_table.keys (⟨[⟨1, 1, 1⟩, ⟨2, 2, 2⟩], [1, 2]⟩ : core_table Nat Nat),
        k ∉ core_table.keys (⟨[⟨1, 9, 0⟩], [1]⟩ : core_table Nat Nat)) ∧
      (core_table.prepend (⟨[⟨1, 9, 0⟩], [1]⟩ : core_table Nat Nat)
          ⟨[⟨1, 1, 1⟩, ⟨2, 2, 2⟩], [1, 2]⟩).map core_table.seq =
        some [(2, 2), (1, 1), (9, 0)] ∧
      (core_table.prepend (⟨[⟨1, 9, 0⟩], [1]⟩ : core_table Nat Nat)
          ⟨[⟨1, 1, 1⟩, ⟨2, 2, 2⟩], [1, 2]⟩).map core_table.seq ≠
        some (core_table.seq (⟨[⟨1, 1, 1⟩, ⟨2, 2, 2⟩], [1, 2]⟩ : core_table Nat Nat) ++
          core_table.seq (⟨[⟨1, 9, 0⟩], [1]⟩ : core_table Nat Nat)) := by
  decide

/-- C9, amended. `prepend` reverses the source: for every container `c` and every
source container `s` whose keys are disjoint from the keys of `c`, after
`c.prepend(s)` the sequence of `c` is the entries of `s` in the reverse of the
iteration order of `s`, followed by the former entries of `c`. -/
theorem C9_prepend_reverses (c s : core_table K V) (hc : invariant c) (hs : invariant s)
    (hdisj : ∀ k ∈ s.keys, k ∉ c.keys) :
    ∃ r, c.prepend s = some r ∧ r.seq = s.seq.reverse ++ c.seq := by
  obtain ⟨r, hfold, _, hseq, _⟩ := prepend_pairs s.seq c hc
    (by rw [← keys_eq_seq]; exact hs.key_unique)
    (by
      intro e he
      apply hdisj
      rw [keys_eq_seq]
      exact List.mem_map.mpr ⟨e, he, rfl⟩)
  refine ⟨r, ?_, hseq⟩
  rw [← hfold]
  exact (List.foldlM_map (fun n : node K V => (n.first, n.second))
    (fun acc e => core_table.unshift acc e.1 e.2) s.data c).symm

/-- Witness of the amended C9: the source `[(1,1), (2,2)]` prepended to `[(9,0)]`. -/
theorem C9_prepend_reverses_witness :
    invariant (⟨[⟨1, 9, 0⟩], [1]⟩ : core_table Nat Nat) ∧
      invariant (⟨[⟨1, 1, 1⟩, ⟨2, 2, 2⟩], [1, 2]⟩ : core_table Nat Nat) ∧
      ∃ r, core_table.prepend (⟨[⟨1, 9, 0⟩], [1]⟩ : core_table Nat Nat)
          ⟨[⟨1, 1, 1⟩, ⟨2, 2, 2⟩], [1, 2]⟩ = some r ∧
        r.seq = [(1, 1), (2, 2)].reverse ++ [(9, 0)] :=
  ⟨by decide, by decide,
    C9_prepend_reverses (⟨[⟨1, 9, 0⟩], [1]⟩ : core_table Nat Nat)
      ⟨[⟨1, 1, 1⟩, ⟨2, 2, 2⟩], [1, 2]⟩ (by decide) (by decide) (by decide)⟩

/-- C10. `splice` inserts the whole source at the position in source order: for every
container `c` with sequence `xs ++ ys`, `p` the position of the first entry of
`ys` (or the end marker), and every source container `s` whose keys are disjoint
from the keys of `c`, `c.splice(p, s)` yields the sequence
`xs ++ (entries of s in the order of s) ++ ys`; in particular `splice` at the end
marker equals `append(s)`. -/
theorem C10_splice_source_order (c s : core_table K V) (hc : invariant c)
    (hs : invariant s) (hdisj : ∀ k ∈ s.keys, k ∉ c.keys) (xs ys : List (K × V))
    (hseq : c.seq = xs ++ ys) :
    (∃ r, c.splice (c.iter_at xs.length) s = some r ∧ r.seq = xs ++ s.seq ++ ys) ∧
      c.splice c.end_ s = c.append s := by
  refine ⟨?_, rfl⟩
  obtain ⟨dx, dy, hd, hx, hy⟩ := entries_split c.data xs ys hseq
  have hp : c.iter_at xs.length = pos dy := by
    rw [← hx, entries_length]
    exact iter_at_split c dx dy hd
  obtain ⟨r, hfold, _, hr, _⟩ := splice_pairs dy s.seq c dx hc hd
    (by rw [← keys_eq_seq]; exact hs.key_unique)
    (by
      intro e he
      apply hdisj
      rw [keys_eq_seq]
      exact List.mem_map.mpr ⟨e, he, rfl⟩)
  refine ⟨r, ?_, by rw [hr, hx, hy]⟩
  rw [← hfold, hp]
  exact (List.foldlM_map (fun n : node K V => (n.first, n.second))
    (fun acc e => core_table.insert acc (pos dy) e.1 e.2) s.data c).symm

/-- Witness of C10: the source `[(1,1), (2,2)]` spliced in front of the entry `(3,2)`
of `[(5,1), (3,2)]`. -/
theorem C10_splice_source_order_witness :
    invariant (⟨[⟨1, 5, 1⟩, ⟨2, 3, 2⟩], [2, 1]⟩ : core_table Nat Nat) ∧
      invariant (⟨[⟨1, 1, 1⟩, ⟨2, 2, 2⟩], [1, 2]⟩ : core_table Nat Nat) ∧
      ∃ r, core_table.splice (⟨[⟨1, 5, 1⟩, ⟨2, 3, 2⟩], [2, 1]⟩ : core_table Nat Nat)
          (some 2) ⟨[⟨1, 1, 1⟩, ⟨2, 2, 2⟩], [1, 2]⟩ = some r ∧
        r.seq = [(5, 1)] ++ [(1, 1), (2, 2)] ++ [(3, 2)] :=
  ⟨by decide, by decide,
    (C10_splice_source_order (⟨[⟨1, 5, 1⟩, ⟨2, 3, 2⟩], [2, 1]⟩ : core_table Nat Nat)
      ⟨[⟨1, 1, 1⟩, ⟨2, 2, 2⟩], [1, 2]⟩ (by decide) (by decide) (by decide)
      [(5, 1)] [(3, 2)] (by decide)).1⟩

/-- C11. `pop` and `shift`: for every non-empty container `c` with sequence
`xs ++ [(k, v)]`, `pop()` returns a container whose sequence is exactly `[(k, v)]`
and leaves `c` with sequence `xs`; symmetrically, for sequence `[(k, v)] ++ xs`,
`shift()` returns `[(k, v)]` and leaves `xs`; on an empty container both return an
empty container and leave it empty. -/
theorem C11_pop_shift (c : core_table K V) (hc : invariant c) :
    (∀ xs k v, c.seq = xs ++ [(k, v)] →
        ∃ o r, c.pop = some (o, r) ∧ o.seq = [(k, v)] ∧ r.seq = xs) ∧
      (∀ xs k v, c.seq = [(k, v)] ++ xs →
        ∃ o r, c.shift = some (o, r) ∧ o.seq = [(k, v)] ∧ r.seq = xs) ∧
      (c.seq = [] →
        (∃ o r, c.pop = some (o, r) ∧ o.seq = [] ∧ r.seq = []) ∧
          ∃ o r, c.shift = some (o, r) ∧ o.seq = [] ∧ r.seq = []) := by
  refine ⟨?_, ?_, ?_⟩
  · intro xs k v hs
    obtain ⟨r, hp, _, hr, _⟩ := pop_seq c hc xs k v hs
    exact ⟨_, r, hp, rfl, hr⟩
  · intro xs k v hs
    obtain ⟨r, hp, _, hr, _⟩ := shift_seq c hc xs k v hs
    exact ⟨_, r, hp, rfl, hr⟩
  · intro hs
    obtain ⟨h1, h2⟩ := shift_pop_empty c hc hs
    exact ⟨⟨_, _, h2, rfl, hs⟩, ⟨_, _, h1, rfl, hs⟩⟩

/-- Witness of C11: after `push("a",1)`, `push("b",2)`, `unshift("c",3)` the sequence
is `[("c",3), ("a",1), ("b",2)]`, and `pop()` returns `[("b",2)]` leaving
`[("c",3), ("a",1)]`. -/
theorem C11_pop_shift_witness :
    invariant (⟨[⟨3, "c", 3⟩, ⟨1, "a", 1⟩, ⟨2, "b", 2⟩], [1, 2, 3]⟩ : core_table String Nat) ∧
      core_table.seq
          (⟨[⟨3, "c", 3⟩, ⟨1, "a", 1⟩, ⟨2, "b", 2⟩], [1, 2, 3]⟩ : core_table String Nat) =
        [("c", 3), ("a", 1), ("b", 2)] ∧
      ∃ o r, core_table.pop
          (⟨[⟨3, "c", 3⟩, ⟨1, "a", 1⟩, ⟨2, "b", 2⟩], [1, 2, 3]⟩ : core_table String Nat) =
            some (o, r) ∧
        o.seq = [("b", 2)] ∧ r.seq = [("c", 3), ("a", 1)] :=
  ⟨example_abc_inv, rfl,
    (C11_pop_shift _ example_abc_inv).1 [("c", 3), ("a", 1)] "b" 2 rfl⟩

/-- C12. `shift`/`unshift` round trip: for every non-empty container `c`, `shift()`
returns a one-entry container `[(k, v)]`, and a following `unshift(k, v)` restores
`c` to exactly its original sequence: the result compares equal to the original
and has the same `keys()`, `values()` and `length()`. -/
theorem C12_shift_unshift_round_trip [DecidableEq V] (c : core_table K V)
    (hc : invariant c) (hne : c.is_empty = false) :
    ∃ o r k v t, c.shift = some (o, r) ∧ o.seq = [(k, v)] ∧ r.unshift k v = some t ∧
      t.seq = c.seq ∧ t.operator_eq c = true ∧ t.keys = c.keys ∧ t.values = c.values ∧
      t.length = c.length := by
  rw [hc.is_empty_eq] at hne
  cases hs : c.seq with
  | nil => simp [hs] at hne
  | cons e xs =>
    obtain ⟨k, v⟩ := e
    obtain ⟨r, hsh, hr, hrs, hlen, hk⟩ := shift_seq c hc xs k v hs
    obtain ⟨g, hi, hperm, ht⟩ := insert_miss r hr k hk [] r.data rfl v
    have hts : core_table.seq (⟨[] ++ ⟨new_addr r.data, k, v⟩ :: r.data, g⟩ : core_table K V) =
        (k, v) :: xs := by
      rw [← hrs]
      simp [core_table.seq, entries]
    refine ⟨_, r, k, v, _, hsh, rfl, hi, hts, ?_, ?_, ?_, ?_⟩
    · rw [operator_eq_iff, hts, hs]
    · rw [keys_eq_seq, keys_eq_seq, hts, hs]
    · rw [values_eq_seq, values_eq_seq, hts, hs]
    · have := hperm.length_eq
      simp only [core_table.length, List.length_cons] at this hlen ⊢
      omega

/-- Witness of C12: `shift()` on `[(9,3), (5,1), (3,7)]` returns `[(9,3)]`, and
`unshift(9,3)` restores the sequence. -/
theorem C12_shift_unshift_round_trip_witness :
    invariant (⟨[⟨3, 9, 3⟩, ⟨1, 5, 1⟩, ⟨2, 3, 7⟩], [2, 1, 3]⟩ : core_table Nat Nat) ∧
      ∃ o r k v t,
        core_table.shift
            (⟨[⟨3, 9, 3⟩, ⟨1, 5, 1⟩, ⟨2, 3, 7⟩], [2, 1, 3]⟩ : core_table Nat Nat) =
          some (o, r) ∧
        o.seq = [(k, v)] ∧ r.unshift k v = some t ∧
        t.seq = [(9, 3), (5, 1), (3, 7)] ∧
        t.operator_eq ⟨[⟨3, 9, 3⟩, ⟨1, 5, 1⟩, ⟨2, 3, 7⟩], [2, 1, 3]⟩ = true ∧
        t.keys = [9, 5, 3] ∧ t.values = [3, 1, 7] ∧ t.length = 3 :=
  ⟨by decide,
    C12_shift_unshift_round_trip
      (⟨[⟨3, 9, 3⟩, ⟨1, 5, 1⟩, ⟨2, 3, 7⟩], [2, 1, 3]⟩ : core_table Nat Nat)
      (by decide) (by decide)⟩

/-- C13. Construction from an explicit ordered list of pairs, duplicates allowed: for
every list `l` of `(key, value)` pairs, `keys()` of the constructed container is the
list of distinct keys of `l` in order of first occurrence, and for every key `k`
occurring in `l`, `value_at(k)` is the value of the last pair in `l` with key `k`. -/
theorem C13_construction_from_list [Inhabited V] (l : List (K × V)) :
    ∃ c, core_table.of_list l = some c ∧ c.keys = first_occurrences (l.map Prod.fst) ∧
      ∀ l1 l2 k v, l = l1 ++ (k, v) :: l2 → k ∉ l2.map Prod.fst →
        c.value_at k = some v := by
  obtain ⟨c, hc, hinv, hseq⟩ := of_list_seq l
  refine ⟨c, hc, ?_, ?_⟩
  · rw [keys_eq_seq, hseq, foldl_seq_push_keys]
  · intro l1 l2 k v hl hk
    apply hinv.value_at_seq
    rw [hseq, hl]
    exact foldl_seq_push_last l1 l2 k v hk

/-- Witness of C13: the list `[(1,5), (2,5), (1,9)]` gives the keys `[1, 2]`, and
the key 1 has the value 9 of its last pair. -/
theorem C13_construction_from_list_witness :
    ∃ c : core_table Nat Nat, core_table.of_list [(1, 5), (2, 5), (1, 9)] = some c ∧
      c.keys = [1, 2] ∧ c.value_at 1 = some 9 :=
  have h := C13_construction_from_list ([(1, 5), (2, 5), (1, 9)] : List (Nat × Nat))
  ⟨h.choose, h.choose_spec.1, h.choose_spec.2.1,
    h.choose_spec.2.2 [(1, 5), (2, 5)] [] 1 9 rfl (by decide)⟩

/-- C14. `sort_by_key` reorders without changing content: for every container `c`,
after `sort_by_key()` the list `keys()` is strictly ascending, the sequence is a
permutation of the sequence before the call, `length()` is unchanged, and for every
key `k`, `contains_key(k)` and `value_at(k)` return what they returned before the
call. -/
theorem C14_sort_by_key [Inhabited V] (c : core_table K V) (hc : invariant c) :
    c.sort_by_key.keys.Pairwise (fun a b => a < b) ∧ c.sort_by_key.seq.Perm c.seq ∧
      c.sort_by_key.length = c.length ∧
      ∀ k, c.sort_by_key.contains_key k = c.contains_key k ∧
        c.sort_by_key.value_at k = c.value_at k := by
  have hperm : (list_sort (fun x y => decide (x.1 < y.1)) c.data).Perm c.data :=
    list_sort_perm _ c.data
  have hs : invariant c.sort_by_key := invariant_of_perm c hc _ hperm
  have hmem : ∀ k, k ∈ c.sort_by_key.keys ↔ k ∈ c.keys :=
    fun k => (hperm.map node.first).mem_iff
  refine ⟨?_, hperm.map _, rfl, ?_⟩
  · have hle := list_sort_sorted (fun x y => decide (x.1 < y.1)) node.first
      (fun _ _ => rfl) c.data
    have hne : List.Pairwise (fun a b => a ≠ b) c.sort_by_key.keys := hs.key_unique
    exact (List.Pairwise.and hle hne).imp (fun h => lt_of_le_of_ne h.1 h.2)
  · intro k
    constructor
    · rw [hs.contains_key_eq, hc.contains_key_eq]
      by_cases hk : k ∈ c.keys
      · simp [hk, (hmem k).mpr hk]
      · have hk2 : k ∉ c.sort_by_key.keys := fun h => hk ((hmem k).mp h)
        simp [hk, hk2]
    · by_cases hk : k ∈ c.keys
      · obtain ⟨n, hn, e⟩ := List.mem_map.mp hk
        subst e
        rw [hs.value_at_mem n (hperm.mem_iff.mpr hn), hc.value_at_mem n hn]
      · rw [hs.value_at_miss k (fun h => hk ((hmem k).mp h)), hc.value_at_miss k hk]

/-- Witness of C14: `[("c",3), ("a",1)]` becomes `[("a",1), ("c",3)]`. -/
theorem C14_sort_by_key_witness :
    invariant (⟨[⟨3, "c", 3⟩, ⟨1, "a", 1⟩], [1, 3]⟩ : core_table String Nat) ∧
      core_table.seq (core_table.sort_by_key
          (⟨[⟨3, "c", 3⟩, ⟨1, "a", 1⟩], [1, 3]⟩ : core_table String Nat)) =
        [("a", 1), ("c", 3)] ∧
      (core_table.keys (core_table.sort_by_key
          (⟨[⟨3, "c", 3⟩, ⟨1, "a", 1⟩], [1, 3]⟩ : core_table String Nat))).Pairwise
        (fun a b => a < b) :=
  ⟨example_ca_inv, by
    simp [core_table.sort_by_key, list_sort, List.insertionSort, List.orderedInsert,
      core_table.seq, entries]
    decide,
    (C14_sort_by_key _ example_ca_inv).1⟩

omit [LinearOrder K] in
/-- C15. `sort_by_value` is a stable sort: for every container `c`, after
`sort_by_value()` the list `values()` is non-decreasing, the sequence is a
permutation of the sequence before the call, and the entries that carry any one
value `w` appear in the same relative order as before the call. -/
theorem C15_sort_by_value_stable [LinearOrder V] (c : core_table K V) :
    c.sort_by_value.values.Pairwise (fun a b => a ≤ b) ∧ c.sort_by_value.seq.Perm c.seq ∧
      ∀ w, c.sort_by_value.seq.filter (fun e => decide (e.2 = w)) =
        c.seq.filter (fun e => decide (e.2 = w)) := by
  refine ⟨?_, ?_, ?_⟩
  · exact list_sort_sorted (fun x y => decide (x.2 < y.2)) node.second (fun _ _ => rfl) c.data
  · exact (list_sort_perm (fun x y => decide (x.2 < y.2)) c.data).map
      (fun n : node K V => (n.first, n.second))
  · intro w
    have h := list_sort_filter (fun x y => decide (x.2 < y.2)) node.second (fun _ _ => rfl)
      w c.data
    unfold core_table.seq entries
    rw [List.filter_map, List.filter_map]
    exact congrArg _ h

/-- Witness of C15: sorting `[(1,9), (2,5), (3,6), (4,5)]` by value keeps `(2,5)` in
front of `(4,5)`. -/
theorem C15_sort_by_value_stable_witness :
    core_table.seq (core_table.sort_by_value
        (⟨[⟨1, 1, 9⟩, ⟨2, 2, 5⟩, ⟨3, 3, 6⟩, ⟨4, 4, 5⟩], [1, 2, 3, 4]⟩ : core_table Nat Nat)) =
        [(2, 5), (4, 5), (3, 6), (1, 9)] ∧
      (core_table.seq (core_table.sort_by_value
        (⟨[⟨1, 1, 9⟩, ⟨2, 2, 5⟩, ⟨3, 3, 6⟩, ⟨4, 4, 5⟩], [1, 2, 3, 4]⟩ :
          core_table Nat Nat))).filter (fun e => decide (e.2 = 5)) =
        [(2, 5), (4, 5)] :=
  ⟨by decide,
    (C15_sort_by_value_stable
      (⟨[⟨1, 1, 9⟩, ⟨2, 2, 5⟩, ⟨3, 3, 6⟩, ⟨4, 4, 5⟩], [1, 2, 3, 4]⟩ :
        core_table Nat Nat)).2.2 5⟩

omit [LinearOrder K] in
/-- C16. `invert` collapses duplicate values with last-insertion-wins: for every
container `c`, `c.invert()` has one entry per distinct value of `c`: its `keys()`
are the distinct values of `c` in order of first occurrence, its `length()` is
their number, and for every value `v` occurring in `c`, `c.invert().value_at(v)`
is the key of the last entry of the sequence of `c` whose value is `v`. -/
theorem C16_invert_last_wins [LinearOrder V] [Inhabited K] (c : core_table K V) :
    ∃ i, c.invert = some i ∧ i.keys = first_occurrences c.values ∧
      i.length = (first_occurrences c.values).length ∧
      ∀ s1 s2 k v, c.seq = s1 ++ (k, v) :: s2 → v ∉ s2.map Prod.snd →
        i.value_at v = some k := by
  obtain ⟨i, hi, hinv, hseq⟩ := of_list_seq (c.seq.map Prod.swap)
  have hkeys : i.keys = first_occurrences c.values := by
    rw [keys_eq_seq, hseq, foldl_seq_push_keys, values_eq_seq, List.map_map]
    rfl
  refine ⟨i, ?_, hkeys, ?_, ?_⟩
  · rw [invert_eq_of_list]; exact hi
  · rw [← hkeys, hinv.length_eq]
    simp [core_table.keys]
  · intro s1 s2 k v hs hv
    apply hinv.value_at_seq
    rw [hseq, hs]
    have := foldl_seq_push_last (s1.map Prod.swap) (s2.map Prod.swap) v k (by simpa using hv)
    simpa using this

/-- Witness of C16: inverting `[(1,5), (2,5), (3,6)]` gives the keys `[5, 6]`, and
the new key 5 maps to 2, the key of the last entry with value 5. -/
theorem C16_invert_last_wins_witness :
    ∃ i : core_table Nat Nat,
      core_table.invert
          (⟨[⟨1, 1, 5⟩, ⟨2, 2, 5⟩, ⟨3, 3, 6⟩], [1, 2, 3]⟩ : core_table Nat Nat) = some i ∧
        i.keys = [5, 6] ∧ i.length = 2 ∧ i.value_at 5 = some 2 :=
  have h := C16_invert_last_wins
    (⟨[⟨1, 1, 5⟩, ⟨2, 2, 5⟩, ⟨3, 3, 6⟩], [1, 2, 3]⟩ : core_table Nat Nat)
  ⟨h.choose, h.choose_spec.1, h.choose_spec.2.1, h.choose_spec.2.2.1,
    h.choose_spec.2.2.2 [(1, 5)] [(3, 6)] 2 5 rfl (by decide)⟩

/-- C17. `invert` is an involution on injective containers: for every container `c`
with pairwise distinct keys and pairwise distinct values, `c.invert().invert()`
equals `c`: same entries in the same sequence order.  (`invert` is a `const`
method: it returns the new container and has no access to modify `c`.) -/
theorem C17_invert_involution [LinearOrder V] (c : core_table K V) (hk : c.keys.Nodup)
    (hv : c.values.Nodup) :
    ∃ i r, c.invert = some i ∧ i.invert = some r ∧ r.seq = c.seq ∧
      r.operator_eq c = true := by
  obtain ⟨i, hi, _, hiseq, _⟩ := of_list_nodup (c.seq.map Prod.swap) (by
    rw [values_eq_seq] at hv
    simpa using hv)
  obtain ⟨r, hr, _, hrseq, _⟩ := of_list_nodup c.seq (by rw [← keys_eq_seq]; exact hk)
  refine ⟨i, r, ?_, ?_, hrseq, ?_⟩
  · rw [invert_eq_of_list]; exact hi
  · rw [invert_eq_of_list, hiseq]
    simpa using hr
  · rw [operator_eq_iff, hrseq]

/-- Witness of C17: the container `[(9,30), (5,10), (3,70)]`. -/
theorem C17_invert_involution_witness :
    (core_table.keys
        (⟨[⟨3, 9, 30⟩, ⟨1, 5, 10⟩, ⟨2, 3, 70⟩], [2, 1, 3]⟩ : core_table Nat Nat)).Nodup ∧
      (core_table.values
        (⟨[⟨3, 9, 30⟩, ⟨1, 5, 10⟩, ⟨2, 3, 70⟩], [2, 1, 3]⟩ : core_table Nat Nat)).Nodup ∧
      ∃ i r,
        core_table.invert
            (⟨[⟨3, 9, 30⟩, ⟨1, 5, 10⟩, ⟨2, 3, 70⟩], [2, 1, 3]⟩ : core_table Nat Nat) =
          some i ∧
        i.invert = some r ∧ r.seq = [(9, 30), (5, 10), (3, 70)] ∧
        r.operator_eq ⟨[⟨3, 9, 30⟩, ⟨1, 5, 10⟩, ⟨2, 3, 70⟩], [2, 1, 3]⟩ = true :=
  ⟨by decide, by decide,
    C17_invert_involution
      (⟨[⟨3, 9, 30⟩, ⟨1, 5, 10⟩, ⟨2, 3, 70⟩], [2, 1, 3]⟩ : core_table Nat Nat)
      (by decide) (by decide)⟩

/-- C18. `edge`/`bulk` reconstruction: for every container `c` of length at least 3,
`edge()` is the two-entry container `[first entry, last entry]`, `bulk()` is `c`
without its first and last entries, and the first entry of `edge()`, the entries of
`bulk()` and the last entry of `edge()`, in this order, are the original sequence
of `c`; for length below 3, `edge()` equals `c` and `bulk()` is empty.  (Both are
`const` methods: they return the new container and cannot modify `c`.) -/
theorem C18_edge_bulk [DecidableEq V] (c : core_table K V) (hc : invariant c) :
    (3 ≤ c.length →
        ∃ f mid l e b, c.seq = [f] ++ mid ++ [l] ∧ c.edge = some e ∧ e.seq = [f, l] ∧
          c.bulk = some b ∧ b.seq = mid ∧ e.seq.take 1 ++ b.seq ++ e.seq.drop 1 = c.seq) ∧
      (c.length < 3 →
        ∃ e, c.edge = some e ∧ e.seq = c.seq ∧ e.operator_eq c = true ∧
          c.bulk = some core_table.empty) := by
  constructor
  · intro h3
    have hlen : c.length = c.seq.length := by
      rw [hc.length_eq, core_table.seq, entries_length]
    obtain ⟨f, mid, l, hs⟩ := seq_first_mid_last c.seq (by omega)
    obtain ⟨fk, fv⟩ := f
    obtain ⟨lk, lv⟩ := l
    have hne : lk ≠ fk := by
      have hku := hc.key_unique
      rw [keys_eq_seq, hs] at hku
      simp only [List.singleton_append, List.map_cons, List.map_append, List.map_nil,
        List.cons_append] at hku
      have hf := (List.nodup_cons.mp hku).1
      intro e
      apply hf
      simp [e]
    have hhead := head_seq c hc (mid ++ [(lk, lv)]) fk fv (by simpa using hs)
    have hlast := last_seq c hc ([(fk, fv)] ++ mid) lk lv hs
    obtain ⟨r, hr, hrinv, hrseq⟩ := head_append_last (fk, fv) (lk, lv) hne
    obtain ⟨e, he, _, heseq, _⟩ := copy_spec r hrinv.key_unique
    obtain ⟨r0, h0, h0inv, h0seq, _⟩ := copy_spec c hc.key_unique
    obtain ⟨r1, h1, h1inv, h1seq, _⟩ := shift_seq r0 h0inv (mid ++ [(lk, lv)]) fk fv
      (by rw [h0seq, hs]; simp)
    obtain ⟨r2, h2, _, h2seq, _⟩ := pop_seq r1 h1inv mid lk lv h1seq
    refine ⟨(fk, fv), mid, (lk, lv), e, r2, hs, ?_, by rw [heseq, hrseq], ?_, h2seq, ?_⟩
    · unfold core_table.edge
      rw [if_neg (by omega), hhead, hlast]
      simp only [hr]
      exact he
    · unfold core_table.bulk
      rw [if_neg (by omega), h0]
      simp only [h1, h2, Option.map_some']
    · rw [heseq, hrseq, h2seq, hs]
      simp
  · intro h3
    obtain ⟨e, he, _, heseq, _⟩ := copy_spec c hc.key_unique
    refine ⟨e, ?_, heseq, by rw [operator_eq_iff, heseq], ?_⟩
    · unfold core_table.edge
      rw [if_pos h3]
      exact he
    · unfold core_table.bulk
      rw [if_pos h3]

/-- Witness of C18: the container `[(9,3), (5,1), (3,7), (4,4)]`, of length 4. -/
theorem C18_edge_bulk_witness :
    invariant
        (⟨[⟨3, 9, 3⟩, ⟨1, 5, 1⟩, ⟨2, 3, 7⟩, ⟨4, 4, 4⟩], [2, 4, 1, 3]⟩ : core_table Nat Nat) ∧
      ∃ f mid l e b,
        core_table.seq
            (⟨[⟨3, 9, 3⟩, ⟨1, 5, 1⟩, ⟨2, 3, 7⟩, ⟨4, 4, 4⟩], [2, 4, 1, 3]⟩ : core_table Nat Nat) =
          [f] ++ mid ++ [l] ∧
        core_table.edge
            (⟨[⟨3, 9, 3⟩, ⟨1, 5, 1⟩, ⟨2, 3, 7⟩, ⟨4, 4, 4⟩], [2, 4, 1, 3]⟩ : core_table Nat Nat) =
          some e ∧
        e.seq = [f, l] ∧
        core_table.bulk
            (⟨[⟨3, 9, 3⟩, ⟨1, 5, 1⟩, ⟨2, 3, 7⟩, ⟨4, 4, 4⟩], [2, 4, 1, 3]⟩ : core_table Nat Nat) =
          some b ∧
        b.seq = mid ∧
        e.seq.take 1 ++ b.seq ++ e.seq.drop 1 = [(9, 3), (5, 1), (3, 7), (4, 4)] :=
  ⟨by decide,
    (C18_edge_bulk
      (⟨[⟨3, 9, 3⟩, ⟨1, 5, 1⟩, ⟨2, 3, 7⟩, ⟨4, 4, 4⟩], [2, 4, 1, 3]⟩ : core_table Nat Nat)
      (by decide)).1 (by decide)⟩

/-- C19. Container comparison is lexicographic over the sequences: for all containers
`a` and `b`, `a == b` holds exactly when their sequences are equal entry by entry
in order, and `a < b` holds exactly when either the sequence of `a` is a proper
prefix of the sequence of `b`, or at the first index where they differ the entry
of `a` is smaller as a pair (smaller key, or equal key and smaller value); the
derived operators satisfy `a > b` iff `b < a`, `a <= b` iff `a < b` or `a == b`,
`a >= b` iff not `a < b`. -/
theorem C19_comparison [LinearOrder V] (a b : core_table K V) :
    (a.operator_eq b = true ↔ a.seq = b.seq) ∧
      (a.operator_lt b = true ↔ seq_less a.seq b.seq) ∧
      (a.operator_gt b = true ↔ b.operator_lt a = true) ∧
      (a.operator_le b = true ↔ (a.operator_lt b = true ∨ a.operator_eq b = true)) ∧
      (a.operator_ge b = true ↔ ¬ a.operator_lt b = true) := by
  refine ⟨operator_eq_iff a b, lexicographical_compare_iff a.data b.data, Iff.rfl, ?_, ?_⟩
  · have h := lexicographical_compare_total a.data b.data
    simp only [core_table.operator_le, core_table.operator_gt, core_table.operator_lt,
      core_table.operator_eq, Bool.not_eq_true']
    exact h
  · simp [core_table.operator_ge]

/-- Witness of C19: `[("a",1), ("b",2)] < [("a",1), ("b",3)]`, decided by the values
2 and 3 of the first entry that differs. -/
theorem C19_comparison_witness :
    core_table.operator_lt
        (⟨[⟨1, "a", 1⟩, ⟨2, "b", 2⟩], [1, 2]⟩ : core_table String Nat)
        ⟨[⟨1, "a", 1⟩, ⟨2, "b", 3⟩], [1, 2]⟩ = true :=
  (C19_comparison (⟨[⟨1, "a", 1⟩, ⟨2, "b", 2⟩], [1, 2]⟩ : core_table String Nat)
      ⟨[⟨1, "a", 1⟩, ⟨2, "b", 3⟩], [1, 2]⟩).2.1.mpr
    (Or.inr ⟨[("a", 1)], ("b", 2), ("b", 3), [], [], rfl, rfl, Or.inr ⟨rfl, by decide⟩⟩)

/-- C20. `find(k)` returns the position after the match: for every container `c` and
every key `k` present in `c`, `find(k)` is the position of the entry immediately
following the entry of `k` in the sequence (the end marker when the entry of `k`
is the last one), not the position of the entry of `k` itself; for every key `k`
absent from `c`, `find(k)` is the end marker. -/
theorem C20_find_after_match (c : core_table K V) (hc : invariant c) (k : K) :
    (∀ xs v ys, c.seq = xs ++ (k, v) :: ys →
        c.find k = some (c.iter_at (xs.length + 1)) ∧
          c.find k ≠ some (c.iter_at xs.length) ∧
          (ys = [] → c.find k = some c.end_)) ∧
      (k ∉ c.keys → c.find k = some c.end_) := by
  constructor
  · intro xs v ys hs
    obtain ⟨dx, dy1, hd, hx, hy1⟩ := entries_split c.data xs ((k, v) :: ys) hs
    obtain ⟨n, dy, e1, e2, hy⟩ := List.map_eq_cons_iff.mp hy1
    subst e1
    simp only [Prod.mk.injEq] at e2
    obtain ⟨ek, _⟩ := e2
    subst ek
    have hn : n ∈ c.data := by rw [hd]; simp
    obtain ⟨hnx, hny⟩ : n.addr ∉ dx.map node.addr ∧ n.addr ∉ dy.map node.addr := by
      have hnd := hc.addr_nodup
      rw [hd] at hnd
      simp only [List.map_append, List.map_cons] at hnd
      exact ⟨fun hmem => (List.nodup_append.mp hnd).2.2 hmem (List.mem_cons_self _ _),
        (List.nodup_cons.mp (List.nodup_append.mp hnd).2.1).1⟩
    have hfind : c.find n.first = some (pos dy) := by
      unfold core_table.find
      rw [hc.find_hit n hn]
      simp only [hd]
      exact list_next_split dx dy n hnx
    have hlen : xs.length = dx.length := by rw [← hx, entries_length]
    have hafter : c.iter_at (xs.length + 1) = pos dy := by
      have := iter_at_split c (dx ++ [n]) dy (by simp [hd])
      simpa [hlen] using this
    have hself : c.iter_at xs.length = some n.addr := by
      rw [hlen, iter_at_split c dx (n :: dy) hd]
      rfl
    refine ⟨by rw [hfind, hafter], ?_, ?_⟩
    · rw [hfind, hself]
      intro e
      simp only [Option.some.injEq] at e
      cases dy with
      | nil => simp [pos] at e
      | cons m ms =>
        simp only [pos, List.head?_cons, Option.map_some', Option.some.injEq] at e
        apply hny
        rw [← e]
        simp
    · intro hys
      rw [hys] at hy
      have hdy : dy = [] := List.map_eq_nil_iff.mp hy
      rw [hfind, hdy]
      rfl
  · intro hk
    unfold core_table.find
    rw [hc.find_miss k hk]

/-- Witness of C20: on `[(9,3), (5,1), (3,7)]`, `find(5)` is the position of the entry
`(3,7)`, `find(3)` and `find(4)` are the end marker. -/
theorem C20_find_after_match_witness :
    invariant (⟨[⟨3, 9, 3⟩, ⟨1, 5, 1⟩, ⟨2, 3, 7⟩], [2, 1, 3]⟩ : core_table Nat Nat) ∧
      core_table.find
          (⟨[⟨3, 9, 3⟩, ⟨1, 5, 1⟩, ⟨2, 3, 7⟩], [2, 1, 3]⟩ : core_table Nat Nat) 5 =
        some (some 2) ∧
      core_table.find
          (⟨[⟨3, 9, 3⟩, ⟨1, 5, 1⟩, ⟨2, 3, 7⟩], [2, 1, 3]⟩ : core_table Nat Nat) 5 ≠
        some (some 1) ∧
      core_table.find
          (⟨[⟨3, 9, 3⟩, ⟨1, 5, 1⟩, ⟨2, 3, 7⟩], [2, 1, 3]⟩ : core_table Nat Nat) 4 =
        some none :=
  ⟨by decide,
    ((C20_find_after_match
      (⟨[⟨3, 9, 3⟩, ⟨1, 5, 1⟩, ⟨2, 3, 7⟩], [2, 1, 3]⟩ : core_table Nat Nat)
      (by decide) 5).1 [(9, 3)] 1 [(3, 7)] rfl).1,
    ((C20_find_after_match
      (⟨[⟨3, 9, 3⟩, ⟨1, 5, 1⟩, ⟨2, 3, 7⟩], [2, 1, 3]⟩ : core_table Nat Nat)
      (by decide) 5).1 [(9, 3)] 1 [(3, 7)] rfl).2.1,
    (C20_find_after_match
      (⟨[⟨3, 9, 3⟩, ⟨1, 5, 1⟩, ⟨2, 3, 7⟩], [2, 1, 3]⟩ : core_table Nat Nat)
      (by decide) 4).2 (by decide)⟩

end claims

end CoreTable
